import Mathlib

/-
Verification of the course-sync reconciliation core.

This file shallowly embeds the Go functions of the repository that the
claims refer to:

  - internal/sync/systemid.go        : BuildSystemID
  - internal/sync (diff)             : Diff, needsUpdate, norm, normLang
  - internal/sync/eightfold_fetch.go : FetchEightfoldCourses, filterManagedEightfold
  - internal/httpx (retry)           : DoWithRetry, isRetryableStatus, isRetryableNetErr
  - internal/providers/eightfold     : ListAllEmployees (offset/meta branch)
  - internal/concurrency/parallel.go : ProcessParallel

Modelling conventions:
  - Go strings are Lean Strings; the Go standard-library helpers
    (strings.TrimSpace, ToLower, ToUpper, HasPrefix, Contains, ReplaceAll)
    are re-implemented over the character list of the string, restricted to
    the ASCII case-mapping and the ASCII whitespace set, which covers every
    value the spec and the claims exercise.
  - float64 course durations are modelled as rationals; the comparisons the
    code performs on them (positivity, absolute difference against 0.01)
    are exact arithmetic on those values.
  - Go maps keyed by string are modelled as association lists with
    overwrite-on-insert semantics (an insert removes the previous binding
    of the key, so key sets stay duplicate-free), and map iteration is
    iteration over the entries of that association list.
  - HTTP exchanges are modelled by oracles: a function from the request
    parameters the code supplies (attempt number, page offset and limit)
    to the decoded outcome of that exchange.  Sleeping, backoff timing and
    context cancellation are not modelled; a retry sleep always completes.
-/

namespace CourseSync

/-! ### ASCII model of the Go strings helpers -/

/-- The whitespace characters trimmed by strings.TrimSpace, restricted to
ASCII (space, tab, newline, carriage return, vertical tab, form feed). -/
def goIsSpace (c : Char) : Bool :=
  c = ' ' || c = '\t' || c = '\n' || c = '\r' ||
  c = Char.ofNat 11 || c = Char.ofNat 12

/-- ASCII lower-casing of one character, as strings.ToLower acts on ASCII. -/
def lowerChar (c : Char) : Char :=
  if h : 65 ≤ c.toNat ∧ c.toNat ≤ 90 then
    Char.ofNatAux (c.toNat + 32) (by left; omega)
  else c

/-- ASCII upper-casing of one character, as strings.ToUpper acts on ASCII. -/
def upperChar (c : Char) : Char :=
  if h : 97 ≤ c.toNat ∧ c.toNat ≤ 122 then
    Char.ofNatAux (c.toNat - 32) (by left; omega)
  else c

/-- Trim leading and trailing whitespace from a character list. -/
def trimList (l : List Char) : List Char :=
  ((l.dropWhile goIsSpace).reverse.dropWhile goIsSpace).reverse

/-- strings.TrimSpace. -/
def goTrim (s : String) : String := ⟨trimList s.data⟩

/-- strings.ToLower (ASCII fragment). -/
def goToLower (s : String) : String := ⟨s.data.map lowerChar⟩

/-- strings.ToUpper (ASCII fragment). -/
def goToUpper (s : String) : String := ⟨s.data.map upperChar⟩

/-- strings.HasPrefix. -/
def goStartsWith (s pre : String) : Bool := pre.data.isPrefixOf s.data

/-- Substring search over character lists, as strings.Contains. -/
def containsSubList : List Char → List Char → Bool
  | hay, needle =>
    if needle.isPrefixOf hay then true
    else match hay with
      | [] => false
      | _ :: t => containsSubList t needle

/-- strings.Contains. -/
def goContains (s sub : String) : Bool := containsSubList s.data sub.data

/-- strings.ReplaceAll restricted to single-character replacement, as used
by normLang to replace underscores by hyphens. -/
def goReplaceChar (s : String) (cFrom cTo : Char) : String :=
  ⟨s.data.map (fun c => if c = cFrom then cTo else c)⟩

/-! ### Character-level lemmas -/

theorem toNat_ofNatAux {n : Nat} (h : n.isValidChar) :
    (Char.ofNatAux n h).toNat = n := rfl

theorem char_eq_iff_toNat (a b : Char) : a = b ↔ a.toNat = b.toNat := by
  constructor
  · intro h; rw [h]
  · intro h; exact Char.eq_of_val_eq (UInt32.ext h)

theorem goIsSpace_eq_decide (c : Char) :
    goIsSpace c = decide (c.toNat = 32 ∨ c.toNat = 9 ∨ c.toNat = 10 ∨
      c.toNat = 13 ∨ c.toNat = 11 ∨ c.toNat = 12) := by
  have h32 : (' ' : Char).toNat = 32 := rfl
  have h9 : ('\t' : Char).toNat = 9 := rfl
  have h10 : ('\n' : Char).toNat = 10 := rfl
  have h13 : ('\r' : Char).toNat = 13 := rfl
  have h11 : (Char.ofNat 11).toNat = 11 := rfl
  have h12 : (Char.ofNat 12).toNat = 12 := rfl
  apply Bool.eq_iff_iff.mpr
  simp only [goIsSpace, char_eq_iff_toNat, h32, h9, h10, h13, h11, h12,
    Bool.or_eq_true, decide_eq_true_eq]
  tauto

theorem goIsSpace_lowerChar (c : Char) : goIsSpace (lowerChar c) = goIsSpace c := by
  unfold lowerChar
  split
  · rename_i h
    rw [goIsSpace_eq_decide, goIsSpace_eq_decide, toNat_ofNatAux]
    simp only [decide_eq_decide]
    omega
  · rfl

theorem goIsSpace_upperChar (c : Char) : goIsSpace (upperChar c) = goIsSpace c := by
  unfold upperChar
  split
  · rename_i h
    rw [goIsSpace_eq_decide, goIsSpace_eq_decide, toNat_ofNatAux]
    simp only [decide_eq_decide]
    omega
  · rfl

theorem lowerChar_upperChar (c : Char) : lowerChar (upperChar c) = lowerChar c := by
  unfold upperChar
  split
  · rename_i h
    have hgen : ∀ (pf : Nat.isValidChar (c.toNat - 32)),
        lowerChar (Char.ofNatAux (c.toNat - 32) pf) = lowerChar c := by
      intro pf
      have h1 : (Char.ofNatAux (c.toNat - 32) pf).toNat = c.toNat - 32 := rfl
      unfold lowerChar
      rw [dif_pos (show 65 ≤ (Char.ofNatAux (c.toNat - 32) pf).toNat ∧
            (Char.ofNatAux (c.toNat - 32) pf).toNat ≤ 90 by rw [h1]; omega),
          dif_neg (show ¬ (65 ≤ c.toNat ∧ c.toNat ≤ 90) by omega)]
      rw [char_eq_iff_toNat, toNat_ofNatAux, h1]
      omega
    exact hgen _
  · rfl

theorem upperChar_lowerChar (c : Char) : upperChar (lowerChar c) = upperChar c := by
  unfold lowerChar
  split
  · rename_i h
    have hgen : ∀ (pf : Nat.isValidChar (c.toNat + 32)),
        upperChar (Char.ofNatAux (c.toNat + 32) pf) = upperChar c := by
      intro pf
      have h1 : (Char.ofNatAux (c.toNat + 32) pf).toNat = c.toNat + 32 := rfl
      unfold upperChar
      rw [dif_pos (show 97 ≤ (Char.ofNatAux (c.toNat + 32) pf).toNat ∧
            (Char.ofNatAux (c.toNat + 32) pf).toNat ≤ 122 by rw [h1]; omega),
          dif_neg (show ¬ (97 ≤ c.toNat ∧ c.toNat ≤ 122) by omega)]
      rw [char_eq_iff_toNat, toNat_ofNatAux, h1]
      omega
    exact hgen _
  · rfl

/-! ### Trim and case maps commute; trim is idempotent -/

theorem dropWhile_congr_fn {p q : Char → Bool} (h : ∀ a, p a = q a)
    (l : List Char) : l.dropWhile p = l.dropWhile q := by
  induction l with
  | nil => rfl
  | cons x t ih =>
    simp only [List.dropWhile_cons, h x]
    split
    · exact ih
    · rfl

theorem trimList_map_of_space_invariant (f : Char → Char)
    (hf : ∀ c, goIsSpace (f c) = goIsSpace c) (l : List Char) :
    trimList (l.map f) = (trimList l).map f := by
  unfold trimList
  have hdw : ∀ (m : List Char), (m.map f).dropWhile goIsSpace
      = (m.dropWhile goIsSpace).map f := by
    intro m
    rw [List.dropWhile_map]
    exact congrArg (List.map f) (dropWhile_congr_fn (fun a => hf a) m)
  rw [hdw, ← List.map_reverse, hdw, List.map_reverse]

theorem goTrim_goToLower (s : String) :
    goTrim (goToLower s) = goToLower (goTrim s) := by
  simp only [goTrim, goToLower]
  congr 1
  exact trimList_map_of_space_invariant lowerChar goIsSpace_lowerChar s.data

theorem goTrim_goToUpper (s : String) :
    goTrim (goToUpper s) = goToUpper (goTrim s) := by
  simp only [goTrim, goToUpper]
  congr 1
  exact trimList_map_of_space_invariant upperChar goIsSpace_upperChar s.data

theorem goToLower_goToUpper (s : String) :
    goToLower (goToUpper s) = goToLower s := by
  simp only [goToLower, goToUpper]
  congr 1
  rw [List.map_map]
  exact List.map_congr_left (fun c _ => lowerChar_upperChar c)

theorem goToUpper_goToLower (s : String) :
    goToUpper (goToLower s) = goToUpper s := by
  simp only [goToLower, goToUpper]
  congr 1
  rw [List.map_map]
  exact List.map_congr_left (fun c _ => upperChar_lowerChar c)

theorem dropWhile_dropWhile (p : Char → Bool) (l : List Char) :
    (l.dropWhile p).dropWhile p = l.dropWhile p := by
  induction l with
  | nil => rfl
  | cons h t ih =>
    by_cases hp : p h
    · simp [List.dropWhile_cons, hp, ih]
    · simp [List.dropWhile_cons, hp]

/-- A list whose dropWhile is itself stays so on any of its prefixes. -/
theorem dropWhile_eq_self_of_prefix {p : Char → Bool} {l m : List Char}
    (hl : l.dropWhile p = l) (hm : m <+: l) : m.dropWhile p = m := by
  cases m with
  | nil => rfl
  | cons x t =>
    obtain ⟨r, hr⟩ := hm
    cases l with
    | nil => simp at hr
    | cons y u =>
      have hx : x = y := by
        have h' : x :: (t ++ r) = y :: u := by simpa using hr
        exact (List.cons.injEq _ _ _ _ ▸ h').1
      subst hx
      have hpx : p x = false := by
        by_contra hcon
        have hpx' : p x = true := by
          cases hpc : p x
          · exact absurd hpc hcon
          · rfl
        rw [List.dropWhile_cons, if_pos hpx'] at hl
        have hlen := congrArg List.length hl
        have hle : (u.dropWhile p).length ≤ u.length :=
          (List.dropWhile_suffix p).length_le
        simp only [List.length_cons] at hlen
        omega
      rw [List.dropWhile_cons, if_neg (by simp [hpx])]

theorem trimList_prefix_dropWhile (l : List Char) :
    trimList l <+: l.dropWhile goIsSpace := by
  unfold trimList
  apply List.reverse_suffix.mp
  rw [List.reverse_reverse]
  exact List.dropWhile_suffix _

theorem trimList_idem (l : List Char) : trimList (trimList l) = trimList l := by
  have h1 : (trimList l).dropWhile goIsSpace = trimList l :=
    dropWhile_eq_self_of_prefix (dropWhile_dropWhile _ _) (trimList_prefix_dropWhile l)
  have h0 : trimList (trimList l)
      = (((trimList l).dropWhile goIsSpace).reverse.dropWhile goIsSpace).reverse := rfl
  rw [h0, h1]
  have h2 : (trimList l).reverse = (l.dropWhile goIsSpace).reverse.dropWhile goIsSpace := by
    unfold trimList; rw [List.reverse_reverse]
  rw [h2, dropWhile_dropWhile, ← h2, List.reverse_reverse]

theorem goTrim_goTrim (s : String) : goTrim (goTrim s) = goTrim s := by
  simp only [goTrim]
  congr 1
  exact trimList_idem s.data

/-! ### SystemIdentity: BuildSystemID (internal/sync/systemid.go)

The Go switch on the lower-cased, trimmed source is written as an if chain;
the default branch upper-cases the trimmed source and falls back to the
generic SRC tag when it is empty.  The function is pure, so determinism is
trivially part of the model. -/

def BuildSystemID (source sourceID : String) : String :=
  if goToLower (goTrim source) = "udemy" then "UDM+" ++ goTrim sourceID
  else if goToLower (goTrim source) = "pluralsight" then "PLS+" ++ goTrim sourceID
  else if goToUpper (goTrim source) = "" then "SRC" ++ "+" ++ goTrim sourceID
  else goToUpper (goTrim source) ++ "+" ++ goTrim sourceID

/-- C6: BuildSystemID is a pure function, case-insensitive in the source
(two sources with the same lower-casing give the same identity),
invariant under trimming whitespace from both inputs, and maps the
concrete pairs exactly as the spec demands. -/
theorem buildSystemID_spec :
    (∀ s₁ s₂ id, goToLower s₁ = goToLower s₂ →
      BuildSystemID s₁ id = BuildSystemID s₂ id)
    ∧ (∀ s id, BuildSystemID (goTrim s) (goTrim id) = BuildSystemID s id)
    ∧ BuildSystemID "UDEMY" "7" = "UDM+7"
    ∧ BuildSystemID "udemy" "7" = "UDM+7"
    ∧ BuildSystemID "pluralsight" "42" = "PLS+42"
    ∧ BuildSystemID "coursera" "x" = "COURSERA+x"
    ∧ BuildSystemID "" "1" = "SRC+1" := by
  refine ⟨?_, ?_, by decide, by decide, by decide, by decide, by decide⟩
  · intro s₁ s₂ id h
    have hlow : goToLower (goTrim s₁) = goToLower (goTrim s₂) := by
      rw [← goTrim_goToLower, ← goTrim_goToLower, h]
    have hup : goToUpper (goTrim s₁) = goToUpper (goTrim s₂) := by
      rw [← goToUpper_goToLower (goTrim s₁), ← goToUpper_goToLower (goTrim s₂), hlow]
    simp only [BuildSystemID, hlow, hup]
  · intro s id
    simp only [BuildSystemID, goTrim_goTrim]

/-- C6 witness: the case-insensitivity and trim clauses applied at the
concrete inputs of the claim. -/
theorem buildSystemID_spec_witness :
    BuildSystemID "UDEMY" "7" = BuildSystemID "udemy" "7"
    ∧ BuildSystemID " udemy " " 7 " = BuildSystemID "udemy" "7" := by
  constructor
  · exact buildSystemID_spec.1 "UDEMY" "udemy" "7" (by decide)
  · have h := buildSystemID_spec.2.1 " udemy " " 7 "
    have h1 : goTrim " udemy " = "udemy" := by decide
    have h2 : goTrim " 7 " = "7" := by decide
    rw [h1, h2] at h
    exact h

/-! ### Reconciler data model and field normalization (internal/sync diff) -/

/-- domain.UnifiedCourse, durations as rationals. -/
structure UnifiedCourse where
  Source : String
  SourceID : String
  Title : String
  Description : String
  CourseURL : String
  Language : String
  Category : String
  Difficulty : String
  DurationHours : ℚ
  Status : String
  PublishedDate : String
  ImageURL : String
  Skills : List String
deriving Repr, DecidableEq

/-- sync.EFCourse, the destination record shape. -/
structure EFCourse where
  SystemID : String
  LMSCourseID : String
  Title : String
  Description : String
  CourseURL : String
  Language : String
  Category : String
  Difficulty : String
  DurationHours : ℚ
  Status : String
  PublishedDate : String
  ImageURL : String
deriving Repr, DecidableEq

/-- export.DeleteCourse. -/
structure DeleteCourse where
  Title : String
  LMSCourseID : String
deriving Repr, DecidableEq

/-- A UnifiedCourse with every field empty, for building concrete inputs. -/
def blankUnified : UnifiedCourse :=
  ⟨"", "", "", "", "", "", "", "", 0, "", "", "", []⟩

/-- An EFCourse with every field empty, for building concrete inputs. -/
def blankEF : EFCourse :=
  ⟨"", "", "", "", "", "", "", "", 0, "", "", ""⟩

/-- The text normalizer of the diff: TrimSpace after ToLower. -/
def norm (s : String) : String := goTrim (goToLower s)

/-- The language normalizer of the diff: normalize, replace underscores by
hyphens, map long-form names to family codes, then map anything starting
with en, es or pt to that family code. -/
def normLangKey (s : String) : String :=
  goReplaceChar (goTrim (goToLower s)) '_' '-'

def normLang (s : String) : String :=
  if normLangKey s = "english" then "en"
  else if normLangKey s = "spanish" ∨ normLangKey s = "español" ∨
    normLangKey s = "espanol" then "es"
  else if normLangKey s = "portuguese" ∨ normLangKey s = "português" ∨
    normLangKey s = "portugues" then "pt"
  else if goStartsWith (normLangKey s) "en" then "en"
  else if goStartsWith (normLangKey s) "es" then "es"
  else if goStartsWith (normLangKey s) "pt" then "pt"
  else normLangKey s

/-- firstNonEmpty specialized to the two arguments the repository passes:
it returns the first argument whose trim is non-empty, untrimmed. -/
def firstNonEmpty (a b : String) : String :=
  if goTrim a ≠ "" then a else if goTrim b ≠ "" then b else ""

/-- needsUpdate: the field-level change detector, an early-return chain in
the Go source, one branch per field. -/
def needsUpdate (p : UnifiedCourse) (e : EFCourse) : Bool :=
  if norm e.Title ≠ "" ∧ norm p.Title ≠ norm e.Title then true
  else if norm e.Description ≠ "" ∧ norm p.Description ≠ norm e.Description then true
  else if norm e.CourseURL ≠ "" ∧ norm p.CourseURL ≠ norm e.CourseURL then true
  else if normLang e.Language ≠ "" ∧ normLang p.Language ≠ normLang e.Language then true
  else if norm e.Category ≠ "" ∧ norm p.Category ≠ norm e.Category then true
  else if norm e.Difficulty ≠ "" ∧ norm p.Difficulty ≠ norm e.Difficulty then true
  else if 0 < e.DurationHours ∧ 0 < p.DurationHours ∧
      (1 : ℚ)/100 < |e.DurationHours - p.DurationHours| then true
  else if norm e.PublishedDate ≠ "" ∧ norm p.PublishedDate ≠ norm e.PublishedDate then true
  else if norm e.ImageURL ≠ "" ∧ norm p.ImageURL ≠ norm e.ImageURL then true
  else if norm e.Status ≠ "" ∧ norm p.Status ≠ "" ∧ norm p.Status ≠ norm e.Status then true
  else false

theorem ite_true_eq_or (p : Prop) [Decidable p] (b : Bool) :
    (if p then true else b) = (decide p || b) := by
  split <;> rename_i h
  · simp [h]
  · simp [h]

/-- needsUpdate as one disjunction of per-field conditions. -/
theorem needsUpdate_eq_disj (p : UnifiedCourse) (e : EFCourse) :
    needsUpdate p e = true ↔
      ((norm e.Title ≠ "" ∧ norm p.Title ≠ norm e.Title)
      ∨ (norm e.Description ≠ "" ∧ norm p.Description ≠ norm e.Description)
      ∨ (norm e.CourseURL ≠ "" ∧ norm p.CourseURL ≠ norm e.CourseURL)
      ∨ (normLang e.Language ≠ "" ∧ normLang p.Language ≠ normLang e.Language)
      ∨ (norm e.Category ≠ "" ∧ norm p.Category ≠ norm e.Category)
      ∨ (norm e.Difficulty ≠ "" ∧ norm p.Difficulty ≠ norm e.Difficulty)
      ∨ (0 < e.DurationHours ∧ 0 < p.DurationHours ∧
          (1 : ℚ)/100 < |e.DurationHours - p.DurationHours|)
      ∨ (norm e.PublishedDate ≠ "" ∧ norm p.PublishedDate ≠ norm e.PublishedDate)
      ∨ (norm e.ImageURL ≠ "" ∧ norm p.ImageURL ≠ norm e.ImageURL)
      ∨ (norm e.Status ≠ "" ∧ norm p.Status ≠ "" ∧ norm p.Status ≠ norm e.Status)) := by
  unfold needsUpdate
  rw [ite_true_eq_or, ite_true_eq_or, ite_true_eq_or, ite_true_eq_or, ite_true_eq_or,
    ite_true_eq_or, ite_true_eq_or, ite_true_eq_or, ite_true_eq_or, ite_true_eq_or]
  simp only [Bool.or_eq_true, decide_eq_true_eq, Bool.false_eq_true, or_false]

/-- C2 counterexample: the destination has a duration of 5, the upstream
duration is 0, the absolute difference 5 far exceeds 0.01 and the
destination value is non-empty, yet needsUpdate reports no difference:
the code also requires the upstream duration to be positive, so a larger
difference does not always trigger an update as the claim states. -/
theorem needsUpdate_duration_cex :
    needsUpdate blankUnified { blankEF with DurationHours := 5 } = false
    ∧ (1 : ℚ)/100 <
        |({ blankEF with DurationHours := 5 } : EFCourse).DurationHours
          - blankUnified.DurationHours|
    ∧ ({ blankEF with DurationHours := 5 } : EFCourse).DurationHours ≠ 0 := by
  refine ⟨?_, by norm_num [blankEF, blankUnified], by norm_num [blankEF]⟩
  rw [← Bool.not_eq_true, needsUpdate_eq_disj]
  simp only [not_or]
  refine ⟨by decide, by decide, by decide, by decide, by decide, by decide, ?_,
    by decide, by decide, by decide⟩
  rintro ⟨-, h2, -⟩
  norm_num [blankUnified] at h2

/-- C2 (amended): needsUpdate triggers exactly when some field condition
fires: a text field (title, description, url, category, difficulty,
publishedDate, imageUrl) fires only when the destination normalized value
is non-empty and differs from the upstream normalized value; the language
field likewise, under the language normalizer; the duration fires exactly
when both durations are positive and differ by more than 0.01 (so a
difference of at most 0.01 never fires); and status fires only when both
sides are non-empty and differ. -/
theorem needsUpdate_amended (p : UnifiedCourse) (e : EFCourse) :
    needsUpdate p e = true ↔
      ((norm e.Title ≠ "" ∧ norm p.Title ≠ norm e.Title)
      ∨ (norm e.Description ≠ "" ∧ norm p.Description ≠ norm e.Description)
      ∨ (norm e.CourseURL ≠ "" ∧ norm p.CourseURL ≠ norm e.CourseURL)
      ∨ (normLang e.Language ≠ "" ∧ normLang p.Language ≠ normLang e.Language)
      ∨ (norm e.Category ≠ "" ∧ norm p.Category ≠ norm e.Category)
      ∨ (norm e.Difficulty ≠ "" ∧ norm p.Difficulty ≠ norm e.Difficulty)
      ∨ (0 < e.DurationHours ∧ 0 < p.DurationHours ∧
          (1 : ℚ)/100 < |e.DurationHours - p.DurationHours|)
      ∨ (norm e.PublishedDate ≠ "" ∧ norm p.PublishedDate ≠ norm e.PublishedDate)
      ∨ (norm e.ImageURL ≠ "" ∧ norm p.ImageURL ≠ norm e.ImageURL)
      ∨ (norm e.Status ≠ "" ∧ norm p.Status ≠ "" ∧ norm p.Status ≠ norm e.Status)) :=
  needsUpdate_eq_disj p e

/-- C2 witness: evaluating the amended characterization at a concrete
pair whose title differs, and at the tolerance example of the spec. -/
theorem needsUpdate_amended_witness :
    needsUpdate { blankUnified with Title := "a" } { blankEF with Title := "b" } = true
    ∧ needsUpdate { blankUnified with DurationHours := 2.501 }
        { blankEF with DurationHours := 2.50 } = false := by
  constructor
  · exact (needsUpdate_amended _ _).mpr (Or.inl (by decide))
  · rw [← Bool.not_eq_true, needsUpdate_amended]
    simp only [not_or]
    refine ⟨by decide, by decide, by decide, by decide, by decide, by decide, ?_,
      by decide, by decide, by decide⟩
    rintro ⟨-, -, h3⟩
    norm_num [blankEF, blankUnified] at h3
    rw [abs_of_nonneg (by norm_num : (0 : ℚ) ≤ 1/1000)] at h3
    norm_num at h3

/-- Two prefixes of the same string that have the same length coincide. -/
theorem goStartsWith_eq_of_length {v p q : String}
    (hp : goStartsWith v p = true) (hq : goStartsWith v q = true)
    (hlen : p.data.length = q.data.length) : p = q := by
  have hp' := List.isPrefixOf_iff_prefix.mp hp
  have hq' := List.isPrefixOf_iff_prefix.mp hq
  have : p.data = q.data := by
    rw [List.prefix_iff_eq_take.mp hp', List.prefix_iff_eq_take.mp hq', hlen]
  cases p; cases q
  exact congrArg String.mk this

/-- The language mapping as C8 words it: long-form names and
locale-suffixed codes (a family code followed by a hyphen after
normalization) map to the 2-letter family code, every other value passes
through unchanged after normalization. -/
def claimNormLang (s : String) : String :=
  if normLangKey s = "english" then "en"
  else if normLangKey s = "spanish" ∨ normLangKey s = "español" ∨
    normLangKey s = "espanol" then "es"
  else if normLangKey s = "portuguese" ∨ normLangKey s = "português" ∨
    normLangKey s = "portugues" then "pt"
  else if goStartsWith (normLangKey s) "en-" then "en"
  else if goStartsWith (normLangKey s) "es-" then "es"
  else if goStartsWith (normLangKey s) "pt-" then "pt"
  else normLangKey s

/-- C8 counterexample: the value esperanto is neither a long-form name nor
a locale-suffixed code, so the claim passes it through unchanged, but the
code maps every value starting with en, es or pt to the family code and
returns es. -/
theorem normLang_esperanto_cex :
    normLang "esperanto" = "es"
    ∧ claimNormLang "esperanto" = "esperanto"
    ∧ normLang "esperanto" ≠ claimNormLang "esperanto" := by
  refine ⟨by decide, by decide, by decide⟩

/-- C8 (amended): after trimming, lower-casing and replacing underscores
by hyphens, the long-form names map to their family code, any value
starting with en, es or pt (locale-suffixed codes included, but also any
other such value) maps to that family code, and a value doing neither
passes through unchanged. -/
theorem normLang_amended :
    (normLang "English" = "en" ∧ normLang "Spanish" = "es"
      ∧ normLang "español" = "es" ∧ normLang "espanol" = "es"
      ∧ normLang "Portuguese" = "pt" ∧ normLang "português" = "pt"
      ∧ normLang "portugues" = "pt"
      ∧ normLang "en_US" = "en" ∧ normLang "es-MX" = "es")
    ∧ (∀ s, goStartsWith (normLangKey s) "en" = true → normLang s = "en")
    ∧ (∀ s, goStartsWith (normLangKey s) "es" = true → normLang s = "es")
    ∧ (∀ s, goStartsWith (normLangKey s) "pt" = true → normLang s = "pt")
    ∧ (∀ s, normLangKey s ≠ "english" → normLangKey s ≠ "spanish" →
        normLangKey s ≠ "español" → normLangKey s ≠ "espanol" →
        normLangKey s ≠ "portuguese" → normLangKey s ≠ "português" →
        normLangKey s ≠ "portugues" →
        goStartsWith (normLangKey s) "en" = false →
        goStartsWith (normLangKey s) "es" = false →
        goStartsWith (normLangKey s) "pt" = false →
        normLang s = normLangKey s) := by
  refine ⟨⟨by decide, by decide, by decide, by decide, by decide, by decide, by decide,
    by decide, by decide⟩, ?_, ?_, ?_, ?_⟩
  · intro s h
    unfold normLang
    split_ifs with g1 g2 g3
    · rfl
    · rcases g2 with h'|h'|h' <;> rw [h'] at h <;> exact absurd h (by decide)
    · rcases g3 with h'|h'|h' <;> rw [h'] at h <;> exact absurd h (by decide)
    · rfl
  · intro s h
    unfold normLang
    split_ifs with g1 g2 g3 g4
    · rw [g1] at h; exact absurd h (by decide)
    · rfl
    · rcases g3 with h'|h'|h' <;> rw [h'] at h <;> exact absurd h (by decide)
    · exact absurd (goStartsWith_eq_of_length g4 h (by decide)) (by decide)
    · rfl
  · intro s h
    unfold normLang
    split_ifs with g1 g2 g3 g4 g5
    · rw [g1] at h; exact absurd h (by decide)
    · rcases g2 with h'|h'|h' <;> rw [h'] at h <;> exact absurd h (by decide)
    · rfl
    · exact absurd (goStartsWith_eq_of_length g4 h (by decide)) (by decide)
    · exact absurd (goStartsWith_eq_of_length g5 h (by decide)) (by decide)
    · rfl
  · intro s h1 h2 h3 h4 h5 h6 h7 hen hes hpt
    unfold normLang
    split_ifs with g1 g2 g3 g4 g5 g6
    · exact absurd g1 h1
    · rcases g2 with h'|h'|h' <;> first
        | exact absurd h' h2 | exact absurd h' h3 | exact absurd h' h4
    · rcases g3 with h'|h'|h' <;> first
        | exact absurd h' h5 | exact absurd h' h6 | exact absurd h' h7
    · simp [g4] at hen
    · simp [g5] at hes
    · simp [g6] at hpt
    · rfl

/-- C8 witness: the amended prefix rule applied to the locale-suffixed
codes of the claim. -/
theorem normLang_amended_witness :
    normLang "en_US" = "en" ∧ normLang "es-MX" = "es" := by
  exact ⟨normLang_amended.2.1 "en_US" (by decide),
    normLang_amended.2.2.1 "es-MX" (by decide)⟩

/-! ### Go maps as association lists with overwrite semantics -/

/-- Lookup in an association list. -/
def lookupAL {α : Type} : List (String × α) → String → Option α
  | [], _ => none
  | (k, v) :: t, key => if k = key then some v else lookupAL t key

/-- Insert with overwrite: the Go map assignment m[k] = v. -/
def upsertAL {α : Type} (m : List (String × α)) (k : String) (v : α) :
    List (String × α) :=
  (k, v) :: m.filter (fun kv => decide (kv.1 ≠ k))

/-- The keys of the association list are duplicate-free. -/
def keysND {α : Type} (m : List (String × α)) : Prop :=
  (m.map Prod.fst).Nodup

theorem keysND_nil {α : Type} : keysND ([] : List (String × α)) := by
  simp [keysND]

theorem keysND_upsertAL {α : Type} {m : List (String × α)} (k : String) (v : α)
    (h : keysND m) : keysND (upsertAL m k v) := by
  unfold keysND upsertAL
  simp only [List.map_cons, List.nodup_cons]
  constructor
  · intro hmem
    obtain ⟨⟨k', v'⟩, hin, hk⟩ := List.mem_map.mp hmem
    have := (List.mem_filter.mp hin).2
    simp only [decide_eq_true_eq] at this
    exact this hk
  · exact h.sublist ((List.filter_sublist m).map Prod.fst)

theorem mem_upsertAL {α : Type} {m : List (String × α)} {k : String} {v : α}
    {kv : String × α} (h : kv ∈ upsertAL m k v) : kv = (k, v) ∨ kv ∈ m := by
  rcases List.mem_cons.mp h with h' | h'
  · exact Or.inl h'
  · exact Or.inr (List.mem_filter.mp h').1

theorem lookupAL_mem {α : Type} {k : String} {v : α} :
    ∀ {m : List (String × α)}, lookupAL m k = some v → (k, v) ∈ m := by
  intro m
  induction m with
  | nil => intro h; simp [lookupAL] at h
  | cons kv t ih =>
    obtain ⟨k', v'⟩ := kv
    intro h
    unfold lookupAL at h
    split_ifs at h with hk
    · obtain rfl := hk
      simp only [Option.some.injEq] at h
      simp [h]
    · exact List.mem_cons.mpr (Or.inr (ih h))

theorem mem_lookupAL {α : Type} {k : String} {v : α} :
    ∀ {m : List (String × α)}, keysND m → (k, v) ∈ m → lookupAL m k = some v := by
  intro m
  induction m with
  | nil => intro _ h; simp at h
  | cons kv t ih =>
    obtain ⟨k', v'⟩ := kv
    intro hnd h
    unfold keysND at hnd
    simp only [List.map_cons, List.nodup_cons] at hnd
    rcases List.mem_cons.mp h with h' | h'
    · cases h'
      unfold lookupAL
      rw [if_pos rfl]
    · unfold lookupAL
      split_ifs with hk
      · exfalso
        obtain rfl := hk
        exact hnd.1 (List.mem_map.mpr ⟨(k', v), h', rfl⟩)
      · exact ih hnd.2 h'

theorem lookupAL_none {α : Type} {k : String} {v : α} :
    ∀ {m : List (String × α)}, lookupAL m k = none → (k, v) ∉ m := by
  intro m
  induction m with
  | nil => intro _ hmem; simp at hmem
  | cons kv t ih =>
    obtain ⟨k', v'⟩ := kv
    intro h hmem
    unfold lookupAL at h
    by_cases hk : k' = k
    · rw [if_pos hk] at h
      exact Option.some_ne_none _ h
    · rw [if_neg hk] at h
      rcases List.mem_cons.mp hmem with h' | h'
      · cases h'
        exact hk rfl
      · exact ih h h'

/-! ### The reconciler (Diff) of internal/sync -/

/-- The upstream join map: for each provider course, key it by its system
identity; skip it when the identity trims to empty (this guard is in the Go
source even though BuildSystemID can never return such a value); later
entries overwrite earlier ones. -/
def buildProvByID (provider : List UnifiedCourse) : List (String × UnifiedCourse) :=
  provider.foldl (fun m c =>
    if goTrim (BuildSystemID c.Source c.SourceID) = "" then m
    else upsertAL m (BuildSystemID c.Source c.SourceID) c) []

/-- The destination join map: key each Eightfold course by the trimmed
first non-empty of lmsCourseId and systemId; skip when empty. -/
def buildEfByID (eightfold : List EFCourse) : List (String × EFCourse) :=
  eightfold.foldl (fun m c =>
    if goTrim (firstNonEmpty c.LMSCourseID c.SystemID) = "" then m
    else upsertAL m (goTrim (firstNonEmpty c.LMSCourseID c.SystemID)) c) []

structure DiffResult where
  create : List UnifiedCourse
  update : List UnifiedCourse
  del : List DeleteCourse
deriving Repr, DecidableEq

/-- Diff: build the two join maps, emit to create the upstream entries
missing from the destination map, to update the matched entries that
needsUpdate reports changed, and to delete the destination entries missing
from the upstream map, with the trimmed destination title. -/
def Diff (provider : List UnifiedCourse) (eightfold : List EFCourse) : DiffResult :=
  { create := (buildProvByID provider).filterMap (fun kv =>
      match lookupAL (buildEfByID eightfold) kv.1 with
      | none => some kv.2
      | some _ => none),
    update := (buildProvByID provider).filterMap (fun kv =>
      match lookupAL (buildEfByID eightfold) kv.1 with
      | none => none
      | some efc => if needsUpdate kv.2 efc then some kv.2 else none),
    del := (buildEfByID eightfold).filterMap (fun kv =>
      match lookupAL (buildProvByID provider) kv.1 with
      | some _ => none
      | none => some ⟨goTrim kv.2.Title, kv.1⟩) }

theorem mem_buildProvByID {provider : List UnifiedCourse}
    {kv : String × UnifiedCourse} (h : kv ∈ buildProvByID provider) :
    kv.1 = BuildSystemID kv.2.Source kv.2.SourceID ∧ kv.2 ∈ provider := by
  suffices hgen : ∀ (l : List UnifiedCourse) (m : List (String × UnifiedCourse)),
      kv ∈ l.foldl (fun m c =>
        if goTrim (BuildSystemID c.Source c.SourceID) = "" then m
        else upsertAL m (BuildSystemID c.Source c.SourceID) c) m →
      kv ∈ m ∨ (kv.1 = BuildSystemID kv.2.Source kv.2.SourceID ∧ kv.2 ∈ l) by
    rcases hgen provider [] h with h' | h'
    · simp at h'
    · exact h'
  intro l
  induction l with
  | nil => intro m hm; exact Or.inl hm
  | cons c t ih =>
    intro m hm
    rcases ih _ hm with h' | h'
    · have h2 : kv ∈ (if goTrim (BuildSystemID c.Source c.SourceID) = "" then m
          else upsertAL m (BuildSystemID c.Source c.SourceID) c) := h'
      by_cases hg : goTrim (BuildSystemID c.Source c.SourceID) = ""
      · rw [if_pos hg] at h2
        exact Or.inl h2
      · rw [if_neg hg] at h2
        rcases mem_upsertAL h2 with h'' | h''
        · right
          rw [h'']
          exact ⟨rfl, by simp⟩
        · exact Or.inl h''
    · exact Or.inr ⟨h'.1, List.mem_cons.mpr (Or.inr h'.2)⟩

theorem mem_buildEfByID {eightfold : List EFCourse}
    {kv : String × EFCourse} (h : kv ∈ buildEfByID eightfold) :
    kv.1 = goTrim (firstNonEmpty kv.2.LMSCourseID kv.2.SystemID)
    ∧ kv.2 ∈ eightfold := by
  suffices hgen : ∀ (l : List EFCourse) (m : List (String × EFCourse)),
      kv ∈ l.foldl (fun m c =>
        if goTrim (firstNonEmpty c.LMSCourseID c.SystemID) = "" then m
        else upsertAL m (goTrim (firstNonEmpty c.LMSCourseID c.SystemID)) c) m →
      kv ∈ m ∨ (kv.1 = goTrim (firstNonEmpty kv.2.LMSCourseID kv.2.SystemID)
        ∧ kv.2 ∈ l) by
    rcases hgen eightfold [] h with h' | h'
    · simp at h'
    · exact h'
  intro l
  induction l with
  | nil => intro m hm; exact Or.inl hm
  | cons c t ih =>
    intro m hm
    rcases ih _ hm with h' | h'
    · have h2 : kv ∈ (if goTrim (firstNonEmpty c.LMSCourseID c.SystemID) = "" then m
          else upsertAL m (goTrim (firstNonEmpty c.LMSCourseID c.SystemID)) c) := h'
      by_cases hg : goTrim (firstNonEmpty c.LMSCourseID c.SystemID) = ""
      · rw [if_pos hg] at h2
        exact Or.inl h2
      · rw [if_neg hg] at h2
        rcases mem_upsertAL h2 with h'' | h''
        · right
          rw [h'']
          exact ⟨rfl, by simp⟩
        · exact Or.inl h''
    · exact Or.inr ⟨h'.1, List.mem_cons.mpr (Or.inr h'.2)⟩

theorem keysND_buildProvByID (provider : List UnifiedCourse) :
    keysND (buildProvByID provider) := by
  suffices hgen : ∀ (l : List UnifiedCourse) (m : List (String × UnifiedCourse)),
      keysND m →
      keysND (l.foldl (fun m c =>
        if goTrim (BuildSystemID c.Source c.SourceID) = "" then m
        else upsertAL m (BuildSystemID c.Source c.SourceID) c) m) from
    hgen provider [] keysND_nil
  intro l
  induction l with
  | nil => intro m hm; exact hm
  | cons c t ih =>
    intro m hm
    apply ih
    show keysND (if goTrim (BuildSystemID c.Source c.SourceID) = "" then m
      else upsertAL m (BuildSystemID c.Source c.SourceID) c)
    by_cases hg : goTrim (BuildSystemID c.Source c.SourceID) = ""
    · rw [if_pos hg]; exact hm
    · rw [if_neg hg]; exact keysND_upsertAL _ _ hm

theorem keysND_buildEfByID (eightfold : List EFCourse) :
    keysND (buildEfByID eightfold) := by
  suffices hgen : ∀ (l : List EFCourse) (m : List (String × EFCourse)),
      keysND m →
      keysND (l.foldl (fun m c =>
        if goTrim (firstNonEmpty c.LMSCourseID c.SystemID) = "" then m
        else upsertAL m (goTrim (firstNonEmpty c.LMSCourseID c.SystemID)) c) m) from
    hgen eightfold [] keysND_nil
  intro l
  induction l with
  | nil => intro m hm; exact hm
  | cons c t ih =>
    intro m hm
    apply ih
    show keysND (if goTrim (firstNonEmpty c.LMSCourseID c.SystemID) = "" then m
      else upsertAL m (goTrim (firstNonEmpty c.LMSCourseID c.SystemID)) c)
    by_cases hg : goTrim (firstNonEmpty c.LMSCourseID c.SystemID) = ""
    · rw [if_pos hg]; exact hm
    · rw [if_neg hg]; exact keysND_upsertAL _ _ hm

/-- C1: Diff partitions the joined identities into three disjoint sets:
an upstream entry absent from the destination map goes to create, a
matched entry goes to update exactly when needsUpdate reports a
difference, a destination entry absent from the upstream map goes to
delete with the trimmed destination title and its identity, and no
identity appears in two of the three outputs. -/
theorem diff_partition (provider : List UnifiedCourse) (eightfold : List EFCourse) :
    (∀ c ∈ (Diff provider eightfold).create,
      lookupAL (buildProvByID provider) (BuildSystemID c.Source c.SourceID) = some c
      ∧ lookupAL (buildEfByID eightfold) (BuildSystemID c.Source c.SourceID) = none)
    ∧ (∀ u ∈ (Diff provider eightfold).update,
      lookupAL (buildProvByID provider) (BuildSystemID u.Source u.SourceID) = some u
      ∧ ∃ e, lookupAL (buildEfByID eightfold) (BuildSystemID u.Source u.SourceID) = some e
          ∧ needsUpdate u e = true)
    ∧ (∀ d ∈ (Diff provider eightfold).del,
      lookupAL (buildProvByID provider) d.LMSCourseID = none
      ∧ ∃ e, lookupAL (buildEfByID eightfold) d.LMSCourseID = some e
          ∧ d.Title = goTrim e.Title)
    ∧ (∀ id c, lookupAL (buildProvByID provider) id = some c →
        lookupAL (buildEfByID eightfold) id = none →
        c ∈ (Diff provider eightfold).create)
    ∧ (∀ id c e, lookupAL (buildProvByID provider) id = some c →
        lookupAL (buildEfByID eightfold) id = some e →
        needsUpdate c e = true →
        c ∈ (Diff provider eightfold).update)
    ∧ (∀ id e, lookupAL (buildEfByID eightfold) id = some e →
        lookupAL (buildProvByID provider) id = none →
        (⟨goTrim e.Title, id⟩ : DeleteCourse) ∈ (Diff provider eightfold).del)
    ∧ (∀ c ∈ (Diff provider eightfold).create, ∀ u ∈ (Diff provider eightfold).update,
        BuildSystemID c.Source c.SourceID ≠ BuildSystemID u.Source u.SourceID)
    ∧ (∀ c ∈ (Diff provider eightfold).create, ∀ d ∈ (Diff provider eightfold).del,
        BuildSystemID c.Source c.SourceID ≠ d.LMSCourseID)
    ∧ (∀ u ∈ (Diff provider eightfold).update, ∀ d ∈ (Diff provider eightfold).del,
        BuildSystemID u.Source u.SourceID ≠ d.LMSCourseID) := by
  have hcs : ∀ c ∈ (Diff provider eightfold).create,
      lookupAL (buildProvByID provider) (BuildSystemID c.Source c.SourceID) = some c
      ∧ lookupAL (buildEfByID eightfold) (BuildSystemID c.Source c.SourceID) = none := by
    intro c hc
    simp only [Diff] at hc
    obtain ⟨⟨k, c'⟩, hmem, hf⟩ := List.mem_filterMap.mp hc
    rcases heq : lookupAL (buildEfByID eightfold) k with _ | e
    · rw [heq] at hf
      simp only [Option.some.injEq] at hf
      obtain rfl := hf
      have hkey := (mem_buildProvByID hmem).1
      rw [← hkey]
      exact ⟨mem_lookupAL (keysND_buildProvByID provider) hmem, heq⟩
    · rw [heq] at hf
      simp at hf
  have hus : ∀ u ∈ (Diff provider eightfold).update,
      lookupAL (buildProvByID provider) (BuildSystemID u.Source u.SourceID) = some u
      ∧ ∃ e, lookupAL (buildEfByID eightfold) (BuildSystemID u.Source u.SourceID) = some e
          ∧ needsUpdate u e = true := by
    intro u hu
    simp only [Diff] at hu
    obtain ⟨⟨k, u'⟩, hmem, hf⟩ := List.mem_filterMap.mp hu
    rcases heq : lookupAL (buildEfByID eightfold) k with _ | e
    · rw [heq] at hf
      simp at hf
    · rw [heq] at hf
      have hf2 : (if needsUpdate u' e = true then some u' else none) = some u := hf
      split_ifs at hf2 with hup
      simp only [Option.some.injEq] at hf2
      obtain rfl := hf2
      have hkey := (mem_buildProvByID hmem).1
      rw [← hkey]
      exact ⟨mem_lookupAL (keysND_buildProvByID provider) hmem, e, heq, hup⟩
  have hds : ∀ d ∈ (Diff provider eightfold).del,
      lookupAL (buildProvByID provider) d.LMSCourseID = none
      ∧ ∃ e, lookupAL (buildEfByID eightfold) d.LMSCourseID = some e
          ∧ d.Title = goTrim e.Title := by
    intro d hd
    simp only [Diff] at hd
    obtain ⟨⟨k, e⟩, hmem, hf⟩ := List.mem_filterMap.mp hd
    rcases heq : lookupAL (buildProvByID provider) k with _ | c
    · rw [heq] at hf
      simp only [Option.some.injEq] at hf
      obtain rfl := hf
      exact ⟨heq, e, mem_lookupAL (keysND_buildEfByID eightfold) hmem, rfl⟩
    · rw [heq] at hf
      simp at hf
  refine ⟨hcs, hus, hds, ?_, ?_, ?_, ?_, ?_, ?_⟩
  · intro id c h1 h2
    simp only [Diff]
    exact List.mem_filterMap.mpr ⟨(id, c), lookupAL_mem h1, by rw [h2]⟩
  · intro id c e h1 h2 h3
    simp only [Diff]
    exact List.mem_filterMap.mpr ⟨(id, c), lookupAL_mem h1, by rw [h2]; simp [h3]⟩
  · intro id e h1 h2
    simp only [Diff]
    exact List.mem_filterMap.mpr ⟨(id, e), lookupAL_mem h1, by rw [h2]⟩
  · intro c hc u hu heq
    have h1 := (hcs c hc).2
    obtain ⟨e, he, -⟩ := (hus u hu).2
    rw [heq, he] at h1
    exact Option.some_ne_none _ h1
  · intro c hc d hd heq
    have h1 := (hcs c hc).1
    have h2 := (hds d hd).1
    rw [heq, h2] at h1
    exact Option.some_ne_none _ h1.symm
  · intro u hu d hd heq
    have h1 := (hus u hu).1
    have h2 := (hds d hd).1
    rw [heq, h2] at h1
    exact Option.some_ne_none _ h1.symm

/-- C1 witness: with one udemy upstream course of id 1 and one destination
course PLS+9 titled X with surrounding spaces, the upstream course is
created and the destination course is deleted with its trimmed title. -/
theorem diff_partition_witness :
    ({ blankUnified with Source := "udemy", SourceID := "1" } : UnifiedCourse)
      ∈ (Diff [{ blankUnified with Source := "udemy", SourceID := "1" }]
          [{ blankEF with LMSCourseID := "PLS+9", Title := " X " }]).create
    ∧ (⟨"X", "PLS+9"⟩ : DeleteCourse)
      ∈ (Diff [{ blankUnified with Source := "udemy", SourceID := "1" }]
          [{ blankEF with LMSCourseID := "PLS+9", Title := " X " }]).del := by
  constructor
  · exact (diff_partition _ _).2.2.2.1 "UDM+1" _ rfl rfl
  · have h := (diff_partition
      [{ blankUnified with Source := "udemy", SourceID := "1" }]
      [{ blankEF with LMSCourseID := "PLS+9", Title := " X " }]).2.2.2.2.2.1
      "PLS+9" { blankEF with LMSCourseID := "PLS+9", Title := " X " } rfl rfl
    have ht : goTrim ({ blankEF with LMSCourseID := "PLS+9", Title := " X " } :
        EFCourse).Title = "X" := by decide
    rw [ht] at h
    exact h

/-- C3 as a code bug witness: a udemy course whose sourceId is empty gets
identity UDM+ (never the empty string), so the emptiness guard in Diff
cannot fire and the record is emitted to create instead of being excluded
from the join. -/
theorem diff_empty_sourceID_bug :
    goTrim ({ blankUnified with Source := "udemy", SourceID := "" } :
        UnifiedCourse).SourceID = ""
    ∧ BuildSystemID "udemy" "" = "UDM+"
    ∧ (Diff [{ blankUnified with Source := "udemy", SourceID := "" }] []).create
      = [{ blankUnified with Source := "udemy", SourceID := "" }] := by
  exact ⟨by decide, by decide, rfl⟩

/-! ### Transport errors and isRetryableNetErr (internal/httpx) -/

/-- Transport-level errors with exactly the structure isRetryableNetErr
inspects: the two context sentinel errors, an error implementing net.Error
with its Timeout and Temporary results, and any other error identified
only by its message. -/
inductive GoErr where
  | canceled
  | deadlineExceeded
  | netErr (timeout temporary : Bool) (msg : String)
  | otherErr (msg : String)
deriving Repr, DecidableEq

/-- The Error() string of the modelled error. -/
def GoErr.message : GoErr → String
  | .canceled => "context canceled"
  | .deadlineExceeded => "context deadline exceeded"
  | .netErr _ _ m => m
  | .otherErr m => m

/-- The transient-message heuristic of isRetryableNetErr: the lower-cased
message contains connection reset, broken pipe, or eof. -/
def msgIndicatesTransient (m : String) : Bool :=
  goContains (goToLower m) "connection reset"
  || goContains (goToLower m) "broken pipe"
  || goContains (goToLower m) "eof"

/-- isRetryableNetErr: Canceled is checked first and never retryable,
DeadlineExceeded is retryable, a net.Error answers Timeout or Temporary
and its message is not consulted, anything else falls through to the
message heuristic. -/
def isRetryableNetErr : GoErr → Bool
  | .canceled => false
  | .deadlineExceeded => true
  | .netErr t temp _ => t || temp
  | .otherErr m => msgIndicatesTransient m

/-- C7 counterexample: a net.Error that is neither a timeout nor
temporary, whose message does indicate a connection reset, is not
retryable: the code answers Timeout and Temporary for net.Errors and
never consults their message, while the claim's condition holds. -/
theorem isRetryableNetErr_msg_cex :
    isRetryableNetErr (.netErr false false "connection reset by peer") = false
    ∧ msgIndicatesTransient
        (GoErr.message (.netErr false false "connection reset by peer")) = true
    ∧ GoErr.netErr false false "connection reset by peer" ≠ GoErr.canceled
    ∧ GoErr.netErr false false "connection reset by peer" ≠ GoErr.deadlineExceeded := by
  exact ⟨by decide, by decide, by decide, by decide⟩

/-- C7 (amended): isRetryableNetErr returns true exactly when the error is
DeadlineExceeded, a net.Error with Timeout or Temporary true, or a
non-net.Error non-context error whose message indicates connection reset,
broken pipe, or EOF; Canceled is never retryable and a net.Error's
message is never consulted. -/
theorem isRetryableNetErr_amended :
    isRetryableNetErr .canceled = false
    ∧ (∀ e, isRetryableNetErr e = true ↔
        (e = .deadlineExceeded
        ∨ (∃ t temp m, e = .netErr t temp m ∧ (t = true ∨ temp = true))
        ∨ (∃ m, e = .otherErr m ∧ msgIndicatesTransient m = true))) := by
  refine ⟨rfl, ?_⟩
  intro e
  cases e with
  | canceled => simp [isRetryableNetErr]
  | deadlineExceeded => simp [isRetryableNetErr]
  | netErr t temp m =>
    simp only [isRetryableNetErr, Bool.or_eq_true]
    constructor
    · intro h
      exact Or.inr (Or.inl ⟨t, temp, m, rfl, h⟩)
    · rintro (h | ⟨t', temp', m', heq, h⟩ | ⟨m', heq, -⟩)
      · exact absurd h (by simp)
      · cases heq
        exact h
      · exact absurd heq (by simp)
  | otherErr m =>
    simp only [isRetryableNetErr]
    constructor
    · intro h
      exact Or.inr (Or.inr ⟨m, rfl, h⟩)
    · rintro (h | ⟨t', temp', m', heq, h⟩ | ⟨m', heq, h⟩)
      · exact absurd h (by simp)
      · exact absurd heq (by simp)
      · cases heq
        exact h

/-- C7 witness: the amended characterization applied to a non-net error
whose message contains EOF. -/
theorem isRetryableNetErr_amended_witness :
    isRetryableNetErr (.otherErr "unexpected EOF") = true :=
  (isRetryableNetErr_amended.2 (.otherErr "unexpected EOF")).mpr
    (Or.inr (Or.inr ⟨"unexpected EOF", rfl, by decide⟩))

/-! ### DoWithRetry (internal/httpx)

Delays are carried in milliseconds; sleeping always completes since
timing and context cancellation are outside the model.  One HTTP attempt
is abstracted by an oracle from the attempt number to its decoded
outcome. -/

/-- httpx.RetryConfig; RetryStatuses none models the nil Go map. -/
structure RetryConfig where
  MaxAttempts : Int
  BaseDelay : Int
  MaxDelay : Int
  Retry5xx : Bool
  RetryStatuses : Option (List Int)
deriving Repr, DecidableEq

def defaultRetryStatuses : List Int := [429, 408, 425, 503, 502, 504]

def DefaultRetryConfig : RetryConfig :=
  { MaxAttempts := 8, BaseDelay := 700, MaxDelay := 30000,
    Retry5xx := true, RetryStatuses := some defaultRetryStatuses }

/-- The config normalization at the top of DoWithRetry. -/
def normalizeConfig (cfg : RetryConfig) : RetryConfig :=
  let cfg1 := if cfg.MaxAttempts ≤ 0 then DefaultRetryConfig else cfg
  let cfg2 := if cfg1.BaseDelay ≤ 0 then { cfg1 with BaseDelay := 700 } else cfg1
  let cfg3 := if cfg2.MaxDelay ≤ 0 then { cfg2 with MaxDelay := 30000 } else cfg2
  if cfg3.RetryStatuses = none then
    { cfg3 with RetryStatuses := DefaultRetryConfig.RetryStatuses } else cfg3

/-- httpx.isRetryableStatus. -/
def isRetryableStatus (code : Int) (cfg : RetryConfig) : Bool :=
  (match cfg.RetryStatuses with
    | some l => decide (code ∈ l)
    | none => false)
  || (cfg.Retry5xx && decide (500 ≤ code) && decide (code ≤ 599))

/-- The outcome of one transport attempt: client.Do fails, the body read
fails, or a response with its status arrives and is fully read. -/
inductive AttemptOutcome where
  | doErr (e : GoErr)
  | readErr (status : Int) (body : String) (e : GoErr)
  | response (status : Int) (body : String)
deriving Repr, DecidableEq

/-- What DoWithRetry returns: a 2xx response, a transport error, a body
whose read failed, or a terminal HTTPError carrying status and body. -/
inductive FetchResult where
  | ok (status : Int) (body : String)
  | transportErr (e : GoErr)
  | readFail (status : Int) (body : String) (e : GoErr)
  | httpErr (status : Int) (body : String)
deriving Repr, DecidableEq

/-- The retry loop of DoWithRetry: remaining counts the attempts still
allowed after the current one (MaxAttempts - attempt), so a retryable
outcome recurses only while remaining is positive, exactly the
attempt < cfg.MaxAttempts test of the source.  The result is paired with
the index of the attempt that produced it. -/
def retryGo (responses : Int → AttemptOutcome) (cfg : RetryConfig) :
    Nat → Int → FetchResult × Int
  | remaining, attempt =>
    match responses attempt with
    | .doErr e =>
      if isRetryableNetErr e = true then
        match remaining with
        | .succ r => retryGo responses cfg r (attempt + 1)
        | 0 => (.transportErr e, attempt)
      else (.transportErr e, attempt)
    | .readErr st body e =>
      if isRetryableNetErr e = true then
        match remaining with
        | .succ r => retryGo responses cfg r (attempt + 1)
        | 0 => (.readFail st body e, attempt)
      else (.readFail st body e, attempt)
    | .response st body =>
      if 200 ≤ st ∧ st < 300 then (.ok st body, attempt)
      else if isRetryableStatus st cfg = true then
        match remaining with
        | .succ r => retryGo responses cfg r (attempt + 1)
        | 0 => (.httpErr st body, attempt)
      else (.httpErr st body, attempt)

/-- httpx.DoWithRetry: normalize the config and run the loop from
attempt 1.  The second component is the number of attempts performed. -/
def DoWithRetry (responses : Int → AttemptOutcome) (cfg : RetryConfig) :
    FetchResult × Int :=
  let ncfg := normalizeConfig cfg
  retryGo responses ncfg (ncfg.MaxAttempts - 1).toNat 1

theorem retryGo_const_retryable {s : Int} {body : String} {cfg : RetryConfig}
    (hs : ¬ (200 ≤ s ∧ s < 300)) (hr : isRetryableStatus s cfg = true) :
    ∀ (remaining : Nat) (attempt : Int),
      retryGo (fun _ => .response s body) cfg remaining attempt
        = (.httpErr s body, attempt + remaining) := by
  intro remaining
  induction remaining with
  | zero =>
    intro attempt
    show (if 200 ≤ s ∧ s < 300 then (FetchResult.ok s body, attempt)
        else if isRetryableStatus s cfg = true then (FetchResult.httpErr s body, attempt)
        else (FetchResult.httpErr s body, attempt))
      = (FetchResult.httpErr s body, attempt + ((0 : Nat) : Int))
    rw [if_neg hs, if_pos hr]
    simp
  | succ r ih =>
    intro attempt
    show (if 200 ≤ s ∧ s < 300 then (FetchResult.ok s body, attempt)
        else if isRetryableStatus s cfg = true then
          retryGo (fun _ => AttemptOutcome.response s body) cfg r (attempt + 1)
        else (FetchResult.httpErr s body, attempt))
      = (FetchResult.httpErr s body, attempt + ((r + 1 : Nat) : Int))
    rw [if_neg hs, if_pos hr, ih (attempt + 1)]
    congr 1
    push_cast
    omega

theorem retryGo_const_terminal {s : Int} {body : String} {cfg : RetryConfig}
    (hs : ¬ (200 ≤ s ∧ s < 300)) (hr : isRetryableStatus s cfg = false)
    (remaining : Nat) (attempt : Int) :
    retryGo (fun _ => .response s body) cfg remaining attempt
      = (.httpErr s body, attempt) := by
  cases remaining with
  | zero =>
    show (if 200 ≤ s ∧ s < 300 then (FetchResult.ok s body, attempt)
        else if isRetryableStatus s cfg = true then (FetchResult.httpErr s body, attempt)
        else (FetchResult.httpErr s body, attempt))
      = (FetchResult.httpErr s body, attempt)
    rw [if_neg hs, if_neg (by simp [hr])]
  | succ r =>
    show (if 200 ≤ s ∧ s < 300 then (FetchResult.ok s body, attempt)
        else if isRetryableStatus s cfg = true then
          retryGo (fun _ => AttemptOutcome.response s body) cfg r (attempt + 1)
        else (FetchResult.httpErr s body, attempt))
      = (FetchResult.httpErr s body, attempt)
    rw [if_neg hs, if_neg (by simp [hr])]

theorem normalizeConfig_maxAttempts {cfg : RetryConfig}
    (h : 1 ≤ cfg.MaxAttempts) :
    (normalizeConfig cfg).MaxAttempts = cfg.MaxAttempts := by
  simp only [normalizeConfig]
  rw [if_neg (show ¬ (cfg.MaxAttempts ≤ 0) by omega)]
  split_ifs <;> rfl

theorem normalizeConfig_retryStatuses_some {cfg : RetryConfig} {l : List Int}
    (h : 1 ≤ cfg.MaxAttempts) (hl : cfg.RetryStatuses = some l) :
    (normalizeConfig cfg).RetryStatuses = some l := by
  simp only [normalizeConfig]
  rw [if_neg (show ¬ (cfg.MaxAttempts ≤ 0) by omega)]
  split_ifs <;> simp_all

theorem normalizeConfig_retry5xx {cfg : RetryConfig}
    (h : 1 ≤ cfg.MaxAttempts) :
    (normalizeConfig cfg).Retry5xx = cfg.Retry5xx := by
  simp only [normalizeConfig]
  rw [if_neg (show ¬ (cfg.MaxAttempts ≤ 0) by omega)]
  split_ifs <;> rfl

/-- C4: a non-2xx status is retried exactly when the policy classifies it
retryable (member of the retry status set, or any 5xx when Retry5xx is
set): under a constant non-2xx response the loop performs MaxAttempts
attempts and ends in a terminal HTTPError when the status is retryable,
and performs exactly one attempt when it is not; in particular a
sustained 503 under the default statuses gives MaxAttempts attempts
ending in an HTTPError with status 503, and a 404 gives one attempt. -/
theorem doWithRetry_policy :
    (∀ cfg code, isRetryableStatus code cfg = true ↔
      ((∃ l, cfg.RetryStatuses = some l ∧ code ∈ l)
      ∨ (cfg.Retry5xx = true ∧ 500 ≤ code ∧ code ≤ 599)))
    ∧ (∀ code, isRetryableStatus code DefaultRetryConfig = true ↔
        (code ∈ defaultRetryStatuses ∨ (500 ≤ code ∧ code ≤ 599)))
    ∧ (∀ cfg s body, 1 ≤ cfg.MaxAttempts → ¬ (200 ≤ s ∧ s < 300) →
        DoWithRetry (fun _ => .response s body) cfg
          = (.httpErr s body,
            if isRetryableStatus s (normalizeConfig cfg) = true
            then cfg.MaxAttempts else 1))
    ∧ (∀ n body, 1 ≤ n →
        DoWithRetry (fun _ => .response 503 body)
          { DefaultRetryConfig with MaxAttempts := n } = (.httpErr 503 body, n))
    ∧ (∀ n body, 1 ≤ n →
        DoWithRetry (fun _ => .response 404 body)
          { DefaultRetryConfig with MaxAttempts := n } = (.httpErr 404 body, 1)) := by
  have hchar : ∀ cfg code, isRetryableStatus code cfg = true ↔
      ((∃ l, cfg.RetryStatuses = some l ∧ code ∈ l)
      ∨ (cfg.Retry5xx = true ∧ 500 ≤ code ∧ code ≤ 599)) := by
    intro cfg code
    simp only [isRetryableStatus]
    rcases hrs : cfg.RetryStatuses with _ | l
    · simp [Bool.or_eq_true, Bool.and_eq_true, decide_eq_true_eq, and_assoc]
    · simp [Bool.or_eq_true, Bool.and_eq_true, decide_eq_true_eq, and_assoc]
  have hgen : ∀ cfg s body, 1 ≤ cfg.MaxAttempts → ¬ (200 ≤ s ∧ s < 300) →
      DoWithRetry (fun _ => .response s body) cfg
        = (.httpErr s body,
          if isRetryableStatus s (normalizeConfig cfg) = true
          then cfg.MaxAttempts else 1) := by
    intro cfg s body hma hs
    simp only [DoWithRetry]
    by_cases hr : isRetryableStatus s (normalizeConfig cfg) = true
    · rw [if_pos hr, retryGo_const_retryable hs hr]
      simp only [Prod.mk.injEq, true_and]
      rw [normalizeConfig_maxAttempts hma]
      omega
    · have hrf : isRetryableStatus s (normalizeConfig cfg) = false := by
        revert hr
        cases isRetryableStatus s (normalizeConfig cfg) <;> simp
      rw [if_neg hr, retryGo_const_terminal hs hrf]
  refine ⟨hchar, ?_, hgen, ?_, ?_⟩
  · intro code
    rw [hchar]
    simp [DefaultRetryConfig]
  · intro n body hn
    have hma : 1 ≤ ({ DefaultRetryConfig with MaxAttempts := n } : RetryConfig).MaxAttempts := hn
    have h1 : (normalizeConfig { DefaultRetryConfig with MaxAttempts := n }).RetryStatuses
        = some defaultRetryStatuses := normalizeConfig_retryStatuses_some hma rfl
    have hr : isRetryableStatus 503
        (normalizeConfig { DefaultRetryConfig with MaxAttempts := n }) = true := by
      simp only [isRetryableStatus, h1]
      simp [defaultRetryStatuses]
    rw [hgen _ 503 body hma (by omega), if_pos hr]
  · intro n body hn
    have hma : 1 ≤ ({ DefaultRetryConfig with MaxAttempts := n } : RetryConfig).MaxAttempts := hn
    have h1 : (normalizeConfig { DefaultRetryConfig with MaxAttempts := n }).RetryStatuses
        = some defaultRetryStatuses := normalizeConfig_retryStatuses_some hma rfl
    have h2 : (normalizeConfig { DefaultRetryConfig with MaxAttempts := n }).Retry5xx
        = true := normalizeConfig_retry5xx hma
    have hr : isRetryableStatus 404
        (normalizeConfig { DefaultRetryConfig with MaxAttempts := n }) = false := by
      simp only [isRetryableStatus, h1, h2]
      simp [defaultRetryStatuses]
    rw [hgen _ 404 body hma (by omega), if_neg (by simp [hr])]

/-- C4 witness: three attempts on a sustained 503 under the default
statuses, one attempt on a 404. -/
theorem doWithRetry_policy_witness :
    DoWithRetry (fun _ => .response 503 "unavailable")
      { DefaultRetryConfig with MaxAttempts := 3 } = (.httpErr 503 "unavailable", 3)
    ∧ DoWithRetry (fun _ => .response 404 "missing")
      { DefaultRetryConfig with MaxAttempts := 3 } = (.httpErr 404 "missing", 1) :=
  ⟨doWithRetry_policy.2.2.2.1 3 "unavailable" (by omega),
   doWithRetry_policy.2.2.2.2 3 "missing" (by omega)⟩

/-! ### FetchEightfoldCourses (internal/sync/eightfold_fetch.go)

The HTTP page fetch ef.ListCoursesPage is an oracle from (pageStartIndex,
limit) to either an error (none) or the decoded rows, already mapped by
mapEightfoldRows into EFCourse, together with the meta block; the
single-shot ef.ListCourses fallback is a separate oracle since it is a
distinct call.  The unbounded Go loop is run on fuel; the claims proved
below hold for every fuel. -/

/-- eightfold.ListCoursesMeta; also the meta block of the employees
endpoint, which carries the same three fields. -/
structure ListCoursesMeta where
  PageStartIndex : Int
  PageTotalCount : Int
  TotalCount : Int
deriving Repr, DecidableEq

/-- The predicate of filterManagedEightfold: the trimmed first non-empty
of lmsCourseId and systemId starts with UDM+ or PLS+. -/
def managedEF (c : EFCourse) : Bool :=
  goStartsWith (goTrim (firstNonEmpty c.LMSCourseID c.SystemID)) "UDM+"
  || goStartsWith (goTrim (firstNonEmpty c.LMSCourseID c.SystemID)) "PLS+"

/-- filterManagedEightfold. -/
def filterManagedEightfold (l : List EFCourse) : List EFCourse :=
  l.filter managedEF

inductive FetchOut where
  | ok (courses : List EFCourse)
  | fail
  | fuelOut
deriving Repr, DecidableEq

/-- The fetch loop of FetchEightfoldCourses.  The state carries the next
pageStartIndex, the number of pages already begun, and the accumulated
courses; the result records the (offset, limit) pairs requested from the
paged oracle, in order, next to the outcome. -/
def fetchAux (lcp : Int → Int → Option (List EFCourse × ListCoursesMeta))
    (fallback : Option (List EFCourse)) (limitN maxPagesN : Int) :
    Nat → Int → Int → List EFCourse → List (Int × Int) × FetchOut
  | 0, _, _, _ => ([], .fuelOut)
  | fuel+1, startIndex, page, acc =>
    if maxPagesN > 0 ∧ page + 1 > maxPagesN then ([], .ok acc)
    else
      (lcp startIndex limitN).elim
        (if page + 1 = 1 then
          fallback.elim ([(startIndex, limitN)], .fail)
            (fun raw => ([(startIndex, limitN)], .ok (filterManagedEightfold raw)))
        else ([(startIndex, limitN)], .fail))
        (fun rm =>
          if rm.1.length = 0 then
            ([(startIndex, limitN)], .ok (acc ++ filterManagedEightfold rm.1))
          else if rm.2.PageTotalCount ≤ 0 then
            ([(startIndex, limitN)], .ok (acc ++ filterManagedEightfold rm.1))
          else if rm.2.TotalCount > 0
              ∧ rm.2.PageStartIndex + rm.2.PageTotalCount ≥ rm.2.TotalCount then
            ([(startIndex, limitN)], .ok (acc ++ filterManagedEightfold rm.1))
          else
            ((startIndex, limitN) ::
              (fetchAux lcp fallback limitN maxPagesN fuel
                (rm.2.PageStartIndex + rm.2.PageTotalCount) (page + 1)
                (acc ++ filterManagedEightfold rm.1)).1,
              (fetchAux lcp fallback limitN maxPagesN fuel
                (rm.2.PageStartIndex + rm.2.PageTotalCount) (page + 1)
                (acc ++ filterManagedEightfold rm.1)).2))

/-- FetchEightfoldCourses: default a non-positive limit to 200, clamp a
negative maxPages to 0 (meaning unlimited), and run the loop from offset
0. -/
def FetchEightfoldCourses
    (lcp : Int → Int → Option (List EFCourse × ListCoursesMeta))
    (fallback : Option (List EFCourse)) (limit maxPages : Int) (fuel : Nat) :
    List (Int × Int) × FetchOut :=
  fetchAux lcp fallback (if limit ≤ 0 then 200 else limit)
    (if maxPages < 0 then 0 else maxPages) fuel 0 0 []

/-! ### ListAllEmployees (internal/providers/eightfold), offset/meta branch

The first parameterless call is an oracle value; subsequent calls keyed by
the (start, limit) query are an oracle function.  A page is its decoded
shape: data with meta, results with next link, or undecodable.  The
results/next branch of the source lies outside the cited lines and is cut
off as unsupported. -/

inductive EmpPage (α : Type) where
  | dataMeta (data : List α) (meta : ListCoursesMeta)
  | resultsNext (results : List α) (next : String)
  | badPage

inductive EmpOut (α : Type) where
  | ok (rows : List α)
  | fail
  | fuelOut
  | unsupported

/-- The decoded data of a page when it has the data/meta shape the
employees loop requires; nothing otherwise. -/
def EmpPage.dataOf {α : Type} : EmpPage α → Option (List α)
  | .dataMeta data _ => some data
  | _ => none

/-- The offset/meta paging loop of ListAllEmployees: while start < total,
fetch (start, limit), require the data/meta shape, append the data, stop
on an empty page, and advance start by the number of records actually
received. -/
def listEmpAux {α : Type} (byOffset : Int → Int → Option (EmpPage α))
    (limit total : Int) :
    Nat → Int → List α → List (Int × Int) × EmpOut α
  | 0, _, _ => ([], .fuelOut)
  | fuel+1, start, all =>
    if start < total then
      (byOffset start limit).elim ([(start, limit)], .fail)
        (fun pg => (pg.dataOf).elim ([(start, limit)], .fail)
          (fun data =>
            if data.length = 0 then ([(start, limit)], .ok (all ++ data))
            else
              ((start, limit) ::
                (listEmpAux byOffset limit total fuel
                  (start + data.length) (all ++ data)).1,
                (listEmpAux byOffset limit total fuel
                  (start + data.length) (all ++ data)).2)))
    else ([], .ok all)

/-- ListAllEmployees, data/meta branch: return the first page as-is when
its meta carries no paging hints (totalCount or pageTotalCount not
positive); otherwise derive the page limit from pageTotalCount, clamp it
to 100, let a positive pageSizeHint override it (also clamped to 100),
and page from offset len(first data). -/
def ListAllEmployees {α : Type} (first : Option (EmpPage α))
    (byOffset : Int → Int → Option (EmpPage α)) (pageSizeHint : Int)
    (fuel : Nat) : List (Int × Int) × EmpOut α :=
  match first with
  | none => ([], .fail)
  | some (.dataMeta data meta) =>
    if meta.TotalCount ≤ 0 ∨ meta.PageTotalCount ≤ 0 then ([], .ok data)
    else
      listEmpAux byOffset
        (if pageSizeHint > 0 then (if pageSizeHint > 100 then 100 else pageSizeHint)
         else if (if meta.PageTotalCount ≤ 0 then 100 else meta.PageTotalCount) > 100
           then 100
           else (if meta.PageTotalCount ≤ 0 then 100 else meta.PageTotalCount))
        meta.TotalCount fuel data.length data
  | some (.resultsNext _ _) => ([], .unsupported)
  | some .badPage => ([], .fail)

theorem fetchAux_zero {lcp : Int → Int → Option (List EFCourse × ListCoursesMeta)}
    {fallback : Option (List EFCourse)} {limitN maxPagesN : Int}
    {startIndex page : Int} {acc : List EFCourse} :
    fetchAux lcp fallback limitN maxPagesN 0 startIndex page acc
      = ([], .fuelOut) := rfl

theorem fetchAux_succ {lcp : Int → Int → Option (List EFCourse × ListCoursesMeta)}
    {fallback : Option (List EFCourse)} {limitN maxPagesN : Int}
    {fuel : Nat} {startIndex page : Int} {acc : List EFCourse} :
    fetchAux lcp fallback limitN maxPagesN (fuel+1) startIndex page acc
      = if maxPagesN > 0 ∧ page + 1 > maxPagesN then ([], .ok acc)
        else
          (lcp startIndex limitN).elim
            (if page + 1 = 1 then
              fallback.elim ([(startIndex, limitN)], .fail)
                (fun raw => ([(startIndex, limitN)], .ok (filterManagedEightfold raw)))
            else ([(startIndex, limitN)], .fail))
            (fun rm =>
              if rm.1.length = 0 then
                ([(startIndex, limitN)], .ok (acc ++ filterManagedEightfold rm.1))
              else if rm.2.PageTotalCount ≤ 0 then
                ([(startIndex, limitN)], .ok (acc ++ filterManagedEightfold rm.1))
              else if rm.2.TotalCount > 0
                  ∧ rm.2.PageStartIndex + rm.2.PageTotalCount ≥ rm.2.TotalCount then
                ([(startIndex, limitN)], .ok (acc ++ filterManagedEightfold rm.1))
              else
                ((startIndex, limitN) ::
                  (fetchAux lcp fallback limitN maxPagesN fuel
                    (rm.2.PageStartIndex + rm.2.PageTotalCount) (page + 1)
                    (acc ++ filterManagedEightfold rm.1)).1,
                  (fetchAux lcp fallback limitN maxPagesN fuel
                    (rm.2.PageStartIndex + rm.2.PageTotalCount) (page + 1)
                    (acc ++ filterManagedEightfold rm.1)).2)) := rfl

theorem mem_filterManagedEightfold {l : List EFCourse} {c : EFCourse}
    (h : c ∈ filterManagedEightfold l) : managedEF c = true :=
  (List.mem_filter.mp h).2

theorem fetchAux_ok_managed
    {lcp : Int → Int → Option (List EFCourse × ListCoursesMeta)}
    {fallback : Option (List EFCourse)} {limitN maxPagesN : Int} :
    ∀ (fuel : Nat) (startIndex page : Int) (acc : List EFCourse),
      (∀ c ∈ acc, managedEF c = true) →
      ∀ reqs out,
        fetchAux lcp fallback limitN maxPagesN fuel startIndex page acc
          = (reqs, .ok out) →
        ∀ c ∈ out, managedEF c = true := by
  intro fuel
  induction fuel with
  | zero =>
    intro startIndex page acc hacc reqs out heq
    rw [fetchAux_zero] at heq
    exact absurd (congrArg Prod.snd heq) (by simp)
  | succ fuel ih =>
    intro startIndex page acc hacc reqs out heq
    rw [fetchAux_succ] at heq
    rcases holc : lcp startIndex limitN with _ | ⟨rows, meta⟩ <;> rw [holc] at heq
    · simp only [Option.elim_none] at heq
      split_ifs at heq
      · obtain rfl : acc = out := by simpa using congrArg Prod.snd heq
        exact hacc
      · rcases fallback with _ | raw
        · simp only [Option.elim_none] at heq
          exact absurd (congrArg Prod.snd heq) (by simp)
        · simp only [Option.elim_some] at heq
          obtain rfl : filterManagedEightfold raw = out := by
            simpa using congrArg Prod.snd heq
          intro c hc
          exact mem_filterManagedEightfold hc
      · exact absurd (congrArg Prod.snd heq) (by simp)
    · simp only [Option.elim_some] at heq
      have happend : ∀ c ∈ acc ++ filterManagedEightfold rows, managedEF c = true := by
        intro c hc
        rcases List.mem_append.mp hc with h' | h'
        · exact hacc c h'
        · exact mem_filterManagedEightfold h'
      split_ifs at heq
      · obtain rfl : acc = out := by simpa using congrArg Prod.snd heq
        exact hacc
      · obtain rfl : acc ++ filterManagedEightfold rows = out := by
          simpa using congrArg Prod.snd heq
        exact happend
      · obtain rfl : acc ++ filterManagedEightfold rows = out := by
          simpa using congrArg Prod.snd heq
        exact happend
      · obtain rfl : acc ++ filterManagedEightfold rows = out := by
          simpa using congrArg Prod.snd heq
        exact happend
      · have h2 : (fetchAux lcp fallback limitN maxPagesN fuel
            (meta.PageStartIndex + meta.PageTotalCount) (page + 1)
            (acc ++ filterManagedEightfold rows)).2 = .ok out := by
          simpa using congrArg Prod.snd heq
        exact ih (meta.PageStartIndex + meta.PageTotalCount) (page + 1)
          (acc ++ filterManagedEightfold rows) happend _ out (by
            rw [show fetchAux lcp fallback limitN maxPagesN fuel
                (meta.PageStartIndex + meta.PageTotalCount) (page + 1)
                (acc ++ filterManagedEightfold rows)
              = ((fetchAux lcp fallback limitN maxPagesN fuel
                (meta.PageStartIndex + meta.PageTotalCount) (page + 1)
                (acc ++ filterManagedEightfold rows)).1,
                (fetchAux lcp fallback limitN maxPagesN fuel
                (meta.PageStartIndex + meta.PageTotalCount) (page + 1)
                (acc ++ filterManagedEightfold rows)).2) from rfl, h2])

/-- C10: every course in a successful FetchEightfoldCourses result, on the
paged path and on the single-shot fallback path alike, has a trimmed
identity (lmsCourseId, or systemId when lmsCourseId is blank) starting
with UDM+ or PLS+; and a destination list all of whose records satisfy
this can only contribute delete entries whose identity starts with UDM+
or PLS+. -/
theorem fetch_managed :
    (∀ lcp fallback limit maxPages fuel reqs out,
      FetchEightfoldCourses lcp fallback limit maxPages fuel = (reqs, .ok out) →
      ∀ c ∈ out, managedEF c = true)
    ∧ (∀ provider ef, (∀ c ∈ ef, managedEF c = true) →
        ∀ d ∈ (Diff provider ef).del,
          goStartsWith d.LMSCourseID "UDM+" = true
          ∨ goStartsWith d.LMSCourseID "PLS+" = true) := by
  constructor
  · intro lcp fallback limit maxPages fuel reqs out heq
    exact fetchAux_ok_managed fuel 0 0 [] (by simp) reqs out heq
  · intro provider ef hef d hd
    simp only [Diff] at hd
    obtain ⟨⟨k, e⟩, hmem, hf⟩ := List.mem_filterMap.mp hd
    rcases heq : lookupAL (buildProvByID provider) k with _ | c
    · rw [heq] at hf
      simp only [Option.some.injEq] at hf
      obtain rfl := hf
      have hkey := mem_buildEfByID hmem
      have hk1 : k = goTrim (firstNonEmpty e.LMSCourseID e.SystemID) := hkey.1
      have hmem2 : e ∈ ef := hkey.2
      have hm := hef e hmem2
      unfold managedEF at hm
      rw [Bool.or_eq_true] at hm
      show goStartsWith k "UDM+" = true ∨ goStartsWith k "PLS+" = true
      rw [hk1]
      exact hm
    · rw [heq] at hf
      simp at hf

/-- C10 witness: a destination course with lmsCourseId UDM+1, returned by
a one-page fetch, is managed; and a delete entry produced from a fully
managed destination list keeps the managed prefix. -/
theorem fetch_managed_witness :
    managedEF { blankEF with LMSCourseID := "UDM+1" } = true
    ∧ (goStartsWith (DeleteCourse.LMSCourseID ⟨"", "UDM+1"⟩) "UDM+" = true
      ∨ goStartsWith (DeleteCourse.LMSCourseID ⟨"", "UDM+1"⟩) "PLS+" = true) := by
  constructor
  · exact fetch_managed.1
      (fun _ _ => some ([{ blankEF with LMSCourseID := "UDM+1" }], ⟨0, 1, 1⟩))
      none 200 0 5 [(0, 200)] [{ blankEF with LMSCourseID := "UDM+1" }] rfl
      { blankEF with LMSCourseID := "UDM+1" } (by simp)
  · exact fetch_managed.2 [] [{ blankEF with LMSCourseID := "UDM+1" }]
      (fun c hc => by
        rw [show c = { blankEF with LMSCourseID := "UDM+1" } by simpa using hc]
        decide)
      ⟨"", "UDM+1"⟩ (by
        show (⟨"", "UDM+1"⟩ : DeleteCourse)
          ∈ (Diff [] [{ blankEF with LMSCourseID := "UDM+1" }]).del
        have : (Diff [] [{ blankEF with LMSCourseID := "UDM+1" }]).del
            = [⟨goTrim "", "UDM+1"⟩] := rfl
        rw [this]
        simp
        decide)

theorem fetchAux_head {lcp : Int → Int → Option (List EFCourse × ListCoursesMeta)}
    {fallback : Option (List EFCourse)} {limitN maxPagesN : Int}
    (fuel : Nat) (start page : Int) (acc : List EFCourse) :
    (fetchAux lcp fallback limitN maxPagesN fuel start page acc).1 = []
    ∨ ∃ t, (fetchAux lcp fallback limitN maxPagesN fuel start page acc).1
        = (start, limitN) :: t := by
  cases fuel with
  | zero => left; rfl
  | succ fuel =>
    rw [fetchAux_succ]
    by_cases hcap : maxPagesN > 0 ∧ page + 1 > maxPagesN
    · rw [if_pos hcap]; left; rfl
    · rw [if_neg hcap]
      rcases holc : lcp start limitN with _ | rm
      · simp only [Option.elim_none]
        by_cases hpg : page + 1 = 1
        · rw [if_pos hpg]
          rcases fallback with _ | raw
          · simp only [Option.elim_none]
            right; exact ⟨[], rfl⟩
          · simp only [Option.elim_some]
            right; exact ⟨[], rfl⟩
        · rw [if_neg hpg]
          right; exact ⟨[], rfl⟩
      · simp only [Option.elim_some]
        by_cases h1 : rm.1.length = 0
        · rw [if_pos h1]; right; exact ⟨[], rfl⟩
        · rw [if_neg h1]
          by_cases h2 : rm.2.PageTotalCount ≤ 0
          · rw [if_pos h2]; right; exact ⟨[], rfl⟩
          · rw [if_neg h2]
            by_cases h3 : rm.2.TotalCount > 0
                ∧ rm.2.PageStartIndex + rm.2.PageTotalCount ≥ rm.2.TotalCount
            · rw [if_pos h3]; right; exact ⟨[], rfl⟩
            · rw [if_neg h3]
              right
              exact ⟨(fetchAux lcp fallback limitN maxPagesN fuel
                (rm.2.PageStartIndex + rm.2.PageTotalCount) (page + 1)
                (acc ++ filterManagedEightfold rm.1)).1, rfl⟩

theorem fetchAux_chain {lcp : Int → Int → Option (List EFCourse × ListCoursesMeta)}
    {fallback : Option (List EFCourse)} {limitN maxPagesN : Int} :
    ∀ (fuel : Nat) (start page : Int) (acc : List EFCourse)
      (i : Nat) (o l o' l' : Int),
      ((fetchAux lcp fallback limitN maxPagesN fuel start page acc).1).get? i
        = some (o, l) →
      ((fetchAux lcp fallback limitN maxPagesN fuel start page acc).1).get? (i+1)
        = some (o', l') →
      ∃ rows meta, lcp o limitN = some (rows, meta)
        ∧ rows.length ≠ 0
        ∧ meta.PageTotalCount > 0
        ∧ ¬ (meta.TotalCount > 0
            ∧ meta.PageStartIndex + meta.PageTotalCount ≥ meta.TotalCount)
        ∧ o' = meta.PageStartIndex + meta.PageTotalCount
        ∧ l = limitN ∧ l' = limitN := by
  intro fuel
  induction fuel with
  | zero =>
    intro start page acc i o l o' l' h1 h2
    rw [fetchAux_zero] at h1
    simp at h1
  | succ fuel ih =>
    intro start page acc i o l o' l' h1 h2
    rw [fetchAux_succ] at h1 h2
    by_cases hcap : maxPagesN > 0 ∧ page + 1 > maxPagesN
    · rw [if_pos hcap] at h1
      simp at h1
    · rw [if_neg hcap] at h1 h2
      rcases holc : lcp start limitN with _ | ⟨rows, meta⟩ <;> rw [holc] at h1 h2
      · simp only [Option.elim_none] at h1 h2
        split_ifs at h1 h2
        · rcases fallback with _ | raw
          · simp only [Option.elim_none] at h2
            simp at h2
          · simp only [Option.elim_some] at h2
            simp at h2
        · simp at h2
      · simp only [Option.elim_some] at h1 h2
        split_ifs at h1 h2 with hlen hpt hstop
        · simp at h2
        · simp at h2
        · simp at h2
        · cases i with
          | zero =>
            simp only [List.get?_cons_zero, Option.some.injEq] at h1
            cases h1
            simp only [List.get?_cons_succ] at h2
            rcases fetchAux_head fuel (meta.PageStartIndex + meta.PageTotalCount)
                (page + 1) (acc ++ filterManagedEightfold rows) with hh | ⟨t, hh⟩
            · rw [hh] at h2
              simp at h2
            · rw [hh] at h2
              simp only [List.get?_cons_zero, Option.some.injEq] at h2
              cases h2
              exact ⟨rows, meta, holc, hlen, by omega, hstop, rfl, rfl, rfl⟩
          | succ j =>
            simp only [List.get?_cons_succ] at h1 h2
            exact ih (meta.PageStartIndex + meta.PageTotalCount) (page + 1)
              (acc ++ filterManagedEightfold rows) j o l o' l' h1 h2

theorem fetchAux_len {lcp : Int → Int → Option (List EFCourse × ListCoursesMeta)}
    {fallback : Option (List EFCourse)} {limitN maxPagesN : Int}
    (hmp : maxPagesN > 0) :
    ∀ (fuel : Nat) (start page : Int) (acc : List EFCourse),
      ((fetchAux lcp fallback limitN maxPagesN fuel start page acc).1).length
        ≤ (maxPagesN - page).toNat := by
  intro fuel
  induction fuel with
  | zero =>
    intro start page acc
    rw [fetchAux_zero]
    simp
  | succ fuel ih =>
    intro start page acc
    rw [fetchAux_succ]
    by_cases hcap : maxPagesN > 0 ∧ page + 1 > maxPagesN
    · rw [if_pos hcap]
      simp
    · rw [if_neg hcap]
      have hpage : page + 1 ≤ maxPagesN := by
        rcases not_and_or.mp hcap with h | h
        · exact absurd hmp h
        · omega
      rcases holc : lcp start limitN with _ | rm
      · simp only [Option.elim_none]
        split_ifs
        · rcases fallback with _ | raw
          · simp only [Option.elim_none, List.length_cons, List.length_nil]
            omega
          · simp only [Option.elim_some, List.length_cons, List.length_nil]
            omega
        · simp only [List.length_cons, List.length_nil]
          omega
      · simp only [Option.elim_some]
        split_ifs
        · simp only [List.length_cons, List.length_nil]; omega
        · simp only [List.length_cons, List.length_nil]; omega
        · simp only [List.length_cons, List.length_nil]; omega
        · simp only [List.length_cons]
          have := ih (rm.2.PageStartIndex + rm.2.PageTotalCount) (page + 1)
            (acc ++ filterManagedEightfold rm.1)
          omega

theorem fetchAux_limits {lcp : Int → Int → Option (List EFCourse × ListCoursesMeta)}
    {fallback : Option (List EFCourse)} {limitN maxPagesN : Int} :
    ∀ (fuel : Nat) (start page : Int) (acc : List EFCourse) (p : Int × Int),
      p ∈ (fetchAux lcp fallback limitN maxPagesN fuel start page acc).1 →
      p.2 = limitN := by
  intro fuel
  induction fuel with
  | zero =>
    intro start page acc p hp
    rw [fetchAux_zero] at hp
    simp at hp
  | succ fuel ih =>
    intro start page acc p hp
    rw [fetchAux_succ] at hp
    by_cases hcap : maxPagesN > 0 ∧ page + 1 > maxPagesN
    · rw [if_pos hcap] at hp
      simp at hp
    · rw [if_neg hcap] at hp
      rcases holc : lcp start limitN with _ | rm <;> rw [holc] at hp
      · simp only [Option.elim_none] at hp
        split_ifs at hp
        · rcases fallback with _ | raw
          · simp only [Option.elim_none] at hp
            simp only [List.mem_singleton] at hp
            rw [hp]
          · simp only [Option.elim_some] at hp
            simp only [List.mem_singleton] at hp
            rw [hp]
        · simp only [List.mem_singleton] at hp
          rw [hp]
      · simp only [Option.elim_some] at hp
        split_ifs at hp
        · simp only [List.mem_singleton] at hp
          rw [hp]
        · simp only [List.mem_singleton] at hp
          rw [hp]
        · simp only [List.mem_singleton] at hp
          rw [hp]
        · simp only [List.mem_cons] at hp
          rcases hp with hp | hp
          · rw [hp]
          · exact ih _ _ _ _ hp

theorem listEmpAux_zero {α : Type} {byOffset : Int → Int → Option (EmpPage α)}
    {limit total : Int} {start : Int} {all : List α} :
    listEmpAux byOffset limit total 0 start all = ([], .fuelOut) := rfl

theorem listEmpAux_succ {α : Type} {byOffset : Int → Int → Option (EmpPage α)}
    {limit total : Int} {fuel : Nat} {start : Int} {all : List α} :
    listEmpAux byOffset limit total (fuel+1) start all
      = if start < total then
          (byOffset start limit).elim ([(start, limit)], .fail)
            (fun pg => (pg.dataOf).elim ([(start, limit)], .fail)
              (fun data =>
                if data.length = 0 then ([(start, limit)], .ok (all ++ data))
                else
                  ((start, limit) ::
                    (listEmpAux byOffset limit total fuel
                      (start + data.length) (all ++ data)).1,
                    (listEmpAux byOffset limit total fuel
                      (start + data.length) (all ++ data)).2)))
        else ([], .ok all) := rfl

theorem listEmpAux_limits {α : Type} {byOffset : Int → Int → Option (EmpPage α)}
    {limit total : Int} :
    ∀ (fuel : Nat) (start : Int) (all : List α) (p : Int × Int),
      p ∈ (listEmpAux byOffset limit total fuel start all).1 → p.2 = limit := by
  intro fuel
  induction fuel with
  | zero =>
    intro start all p hp
    rw [listEmpAux_zero] at hp
    simp at hp
  | succ fuel ih =>
    intro start all p hp
    rw [listEmpAux_succ] at hp
    by_cases hlt : start < total
    · rw [if_pos hlt] at hp
      rcases hbo : byOffset start limit with _ | pg <;> rw [hbo] at hp
      · simp only [Option.elim_none, List.mem_singleton] at hp
        rw [hp]
      · simp only [Option.elim_some] at hp
        rcases hdo : pg.dataOf with _ | data <;> rw [hdo] at hp
        · simp only [Option.elim_none, List.mem_singleton] at hp
          rw [hp]
        · simp only [Option.elim_some] at hp
          split_ifs at hp
          · simp only [List.mem_singleton] at hp
            rw [hp]
          · simp only [List.mem_cons] at hp
            rcases hp with hp | hp
            · rw [hp]
            · exact ih _ _ _ hp
    · rw [if_neg hlt] at hp
      simp at hp

theorem listEmpAux_head {α : Type} {byOffset : Int → Int → Option (EmpPage α)}
    {limit total : Int} (fuel : Nat) (start : Int) (all : List α) :
    (listEmpAux byOffset limit total fuel start all).1 = []
    ∨ ∃ t, (listEmpAux byOffset limit total fuel start all).1
        = (start, limit) :: t := by
  cases fuel with
  | zero => left; rfl
  | succ fuel =>
    rw [listEmpAux_succ]
    by_cases hlt : start < total
    · rw [if_pos hlt]
      rcases hbo : byOffset start limit with _ | pg
      · simp only [Option.elim_none]
        right; exact ⟨[], rfl⟩
      · simp only [Option.elim_some]
        rcases hdo : pg.dataOf with _ | data
        · simp only [Option.elim_none]
          right; exact ⟨[], rfl⟩
        · simp only [Option.elim_some]
          by_cases hlen : data.length = 0
          · rw [if_pos hlen]
            right; exact ⟨[], rfl⟩
          · rw [if_neg hlen]
            right
            exact ⟨(listEmpAux byOffset limit total fuel
              (start + data.length) (all ++ data)).1, rfl⟩
    · rw [if_neg hlt]
      left; rfl

theorem listEmpAux_chain {α : Type} {byOffset : Int → Int → Option (EmpPage α)}
    {limit total : Int} :
    ∀ (fuel : Nat) (start : Int) (all : List α) (i : Nat) (o l o' l' : Int),
      ((listEmpAux byOffset limit total fuel start all).1).get? i = some (o, l) →
      ((listEmpAux byOffset limit total fuel start all).1).get? (i+1)
        = some (o', l') →
      ∃ pg data, byOffset o limit = some pg ∧ pg.dataOf = some data
        ∧ data.length ≠ 0 ∧ o' = o + data.length ∧ l = limit ∧ l' = limit := by
  intro fuel
  induction fuel with
  | zero =>
    intro start all i o l o' l' h1 h2
    rw [listEmpAux_zero] at h1
    simp at h1
  | succ fuel ih =>
    intro start all i o l o' l' h1 h2
    rw [listEmpAux_succ] at h1 h2
    by_cases hlt : start < total
    · rw [if_pos hlt] at h1 h2
      rcases hbo : byOffset start limit with _ | pg <;> rw [hbo] at h1 h2
      · simp only [Option.elim_none] at h1 h2
        simp at h2
      · simp only [Option.elim_some] at h1 h2
        rcases hdo : pg.dataOf with _ | data <;> rw [hdo] at h1 h2
        · simp only [Option.elim_none] at h1 h2
          simp at h2
        · simp only [Option.elim_some] at h1 h2
          split_ifs at h1 h2 with hlen
          · simp at h2
          · cases i with
            | zero =>
              simp only [List.get?_cons_zero, Option.some.injEq] at h1
              cases h1
              simp only [List.get?_cons_succ] at h2
              rcases listEmpAux_head fuel (start + data.length) (all ++ data)
                  with hh | ⟨t, hh⟩
              · rw [hh] at h2
                simp at h2
              · rw [hh] at h2
                simp only [List.get?_cons_zero, Option.some.injEq] at h2
                cases h2
                exact ⟨pg, data, hbo, hdo, hlen, rfl, rfl, rfl⟩
            | succ j =>
              simp only [List.get?_cons_succ] at h1 h2
              exact ih (start + data.length) (all ++ data) j o l o' l' h1 h2
    · rw [if_neg hlt] at h1
      simp at h1

/-- A concrete page oracle: offset 0 answers one course with meta
pageStartIndex 0, pageTotalCount 1, totalCount 0; any other offset
answers an empty page. -/
def cexLcp : Int → Int → Option (List EFCourse × ListCoursesMeta) :=
  fun start _ =>
    if start = 0 then
      some ([{ blankEF with LMSCourseID := "UDM+1" }], ⟨0, 1, 0⟩)
    else some ([], ⟨start, 0, 0⟩)

/-- C5 counterexample: on a first page whose meta reports totalCount 0,
FetchEightfoldCourses does not stop: it requests a second page (offset 1)
and only stops on the empty page, so a run with totalCount <= 0 performs
two requests where the claim predicts the iteration stops. -/
theorem pagination_totalCount_cex :
    (FetchEightfoldCourses cexLcp none 200 0 5).1 = [(0, 200), (1, 200)]
    ∧ (∃ rows meta, cexLcp 0 200 = some (rows, meta) ∧ meta.TotalCount ≤ 0) := by
  constructor
  · rfl
  · exact ⟨_, _, rfl, by decide⟩

/-- C5 (amended): in FetchEightfoldCourses, every next offset requested
equals pageStartIndex + pageTotalCount of the previous page's meta, and a
further page is requested only while the page is non-empty, its
pageTotalCount is positive, and it is not the case that totalCount is
positive with the next offset at or past it (totalCount <= 0 alone does
not stop the loop); a positive maxPages caps the number of page requests
while maxPages 0 leaves the loop to its own termination signals; the
page-size hint is not clamped there, only defaulted to 200 when
non-positive.  In ListAllEmployees, a first page without positive paging
hints (totalCount <= 0 or pageTotalCount <= 0) is returned as the whole
result with no offset request; every offset request carries a limit of at
most 100; and the next offset requested equals the previous offset plus
the number of records actually received. -/
theorem pagination_amended :
    (∀ (lcp : Int → Int → Option (List EFCourse × ListCoursesMeta))
      (fallback : Option (List EFCourse)) (limit maxPages : Int) (fuel : Nat)
      (i : Nat) (o l o' l' : Int),
      ((FetchEightfoldCourses lcp fallback limit maxPages fuel).1).get? i
        = some (o, l) →
      ((FetchEightfoldCourses lcp fallback limit maxPages fuel).1).get? (i+1)
        = some (o', l') →
      ∃ rows meta, lcp o (if limit ≤ 0 then 200 else limit) = some (rows, meta)
        ∧ rows.length ≠ 0
        ∧ meta.PageTotalCount > 0
        ∧ ¬ (meta.TotalCount > 0
            ∧ meta.PageStartIndex + meta.PageTotalCount ≥ meta.TotalCount)
        ∧ o' = meta.PageStartIndex + meta.PageTotalCount
        ∧ l = (if limit ≤ 0 then 200 else limit)
        ∧ l' = (if limit ≤ 0 then 200 else limit))
    ∧ (∀ lcp fallback limit maxPages fuel, maxPages > 0 →
        ((FetchEightfoldCourses lcp fallback limit maxPages fuel).1).length
          ≤ maxPages.toNat)
    ∧ (∀ lcp fallback limit maxPages fuel p,
        p ∈ (FetchEightfoldCourses lcp fallback limit maxPages fuel).1 →
        p.2 = (if limit ≤ 0 then 200 else limit))
    ∧ (∀ (α : Type) (data : List α) (meta : ListCoursesMeta)
        (byOffset : Int → Int → Option (EmpPage α)) (hint : Int) (fuel : Nat),
        meta.TotalCount ≤ 0 ∨ meta.PageTotalCount ≤ 0 →
        ListAllEmployees (some (.dataMeta data meta)) byOffset hint fuel
          = ([], .ok data))
    ∧ (∀ (α : Type) (first : Option (EmpPage α))
        (byOffset : Int → Int → Option (EmpPage α)) (hint : Int) (fuel : Nat)
        (p : Int × Int),
        p ∈ (ListAllEmployees first byOffset hint fuel).1 → p.2 ≤ 100)
    ∧ (∀ (α : Type) (first : Option (EmpPage α))
        (byOffset : Int → Int → Option (EmpPage α)) (hint : Int) (fuel : Nat)
        (i : Nat) (o l o' l' : Int),
        ((ListAllEmployees first byOffset hint fuel).1).get? i = some (o, l) →
        ((ListAllEmployees first byOffset hint fuel).1).get? (i+1)
          = some (o', l') →
        ∃ pg data, byOffset o l = some pg ∧ EmpPage.dataOf pg = some data
          ∧ data.length ≠ 0 ∧ o' = o + data.length ∧ l' = l) := by
  refine ⟨?_, ?_, ?_, ?_, ?_, ?_⟩
  · intro lcp fallback limit maxPages fuel i o l o' l' h1 h2
    exact fetchAux_chain fuel 0 0 [] i o l o' l' h1 h2
  · intro lcp fallback limit maxPages fuel hmp
    have he : (if maxPages < 0 then 0 else maxPages) = maxPages := if_neg (by omega)
    have h : ((fetchAux lcp fallback (if limit ≤ 0 then 200 else limit)
        (if maxPages < 0 then 0 else maxPages) fuel 0 0 []).1).length
        ≤ ((if maxPages < 0 then 0 else maxPages) - 0).toNat :=
      fetchAux_len (by rw [he]; exact hmp) fuel 0 0 []
    rw [he] at h
    simp only [sub_zero] at h
    show (fetchAux lcp fallback (if limit ≤ 0 then 200 else limit)
      (if maxPages < 0 then 0 else maxPages) fuel 0 0 []).1.length ≤ maxPages.toNat
    rw [he]
    exact h
  · intro lcp fallback limit maxPages fuel p hp
    exact fetchAux_limits fuel 0 0 [] p hp
  · intro α data meta byOffset hint fuel h
    show (if meta.TotalCount ≤ 0 ∨ meta.PageTotalCount ≤ 0 then
        (([] : List (Int × Int)), EmpOut.ok data)
      else listEmpAux byOffset
        (if hint > 0 then (if hint > 100 then 100 else hint)
          else if (if meta.PageTotalCount ≤ 0 then 100 else meta.PageTotalCount) > 100
            then 100
            else (if meta.PageTotalCount ≤ 0 then 100 else meta.PageTotalCount))
        meta.TotalCount fuel data.length data) = ([], EmpOut.ok data)
    rw [if_pos h]
  · intro α first byOffset hint fuel p hp
    rcases first with _ | pg
    · have heval : ListAllEmployees (none : Option (EmpPage α)) byOffset hint fuel
          = ([], .fail) := rfl
      rw [heval] at hp
      simp at hp
    · rcases pg with ⟨data, meta⟩ | ⟨res, nx⟩ | _
      · have heval : ListAllEmployees (some (.dataMeta data meta)) byOffset hint fuel
            = if meta.TotalCount ≤ 0 ∨ meta.PageTotalCount ≤ 0 then
                (([] : List (Int × Int)), EmpOut.ok data)
              else listEmpAux byOffset
                (if hint > 0 then (if hint > 100 then 100 else hint)
                  else if (if meta.PageTotalCount ≤ 0 then 100
                      else meta.PageTotalCount) > 100
                    then 100
                    else (if meta.PageTotalCount ≤ 0 then 100
                      else meta.PageTotalCount))
                meta.TotalCount fuel data.length data := rfl
        rw [heval] at hp
        by_cases hc : meta.TotalCount ≤ 0 ∨ meta.PageTotalCount ≤ 0
        · rw [if_pos hc] at hp
          simp at hp
        · rw [if_neg hc] at hp
          have h2 := listEmpAux_limits _ _ _ _ hp
          rw [h2]
          split_ifs <;> omega
      · have heval : ListAllEmployees (some (.resultsNext res nx)) byOffset hint fuel
            = ([], .unsupported) := rfl
        rw [heval] at hp
        simp at hp
      · have heval : ListAllEmployees (some (.badPage : EmpPage α)) byOffset hint fuel
            = ([], .fail) := rfl
        rw [heval] at hp
        simp at hp
  · intro α first byOffset hint fuel i o l o' l' h1 h2
    rcases first with _ | pg
    · have heval : ListAllEmployees (none : Option (EmpPage α)) byOffset hint fuel
          = ([], .fail) := rfl
      rw [heval] at h1
      simp at h1
    · rcases pg with ⟨data, meta⟩ | ⟨res, nx⟩ | _
      · have heval : ListAllEmployees (some (.dataMeta data meta)) byOffset hint fuel
            = if meta.TotalCount ≤ 0 ∨ meta.PageTotalCount ≤ 0 then
                (([] : List (Int × Int)), EmpOut.ok data)
              else listEmpAux byOffset
                (if hint > 0 then (if hint > 100 then 100 else hint)
                  else if (if meta.PageTotalCount ≤ 0 then 100
                      else meta.PageTotalCount) > 100
                    then 100
                    else (if meta.PageTotalCount ≤ 0 then 100
                      else meta.PageTotalCount))
                meta.TotalCount fuel data.length data := rfl
        rw [heval] at h1 h2
        by_cases hc : meta.TotalCount ≤ 0 ∨ meta.PageTotalCount ≤ 0
        · rw [if_pos hc] at h1
          simp at h1
        · rw [if_neg hc] at h1 h2
          obtain ⟨pg, data2, hbo, hdo, hlen, ho', hl, hl'⟩ :=
            listEmpAux_chain fuel data.length data i o l o' l' h1 h2
          refine ⟨pg, data2, ?_, hdo, hlen, ho', ?_⟩
          · rw [hl]
            exact hbo
          · rw [hl, hl']
      · have heval : ListAllEmployees (some (.resultsNext res nx)) byOffset hint fuel
            = ([], .unsupported) := rfl
        rw [heval] at h1
        simp at h1
      · have heval : ListAllEmployees (some (.badPage : EmpPage α)) byOffset hint fuel
            = ([], .fail) := rfl
        rw [heval] at h1
        simp at h1

/-- C5 witness: an employees first page with totalCount 0 is returned
as-is with no offset request, and a courses run capped at maxPages 2
performs at most 2 page requests. -/
theorem pagination_amended_witness :
    ListAllEmployees (some (.dataMeta [(0 : Nat)] ⟨0, 0, 0⟩))
      (fun _ _ => none) 0 3 = ([], .ok [0])
    ∧ (FetchEightfoldCourses cexLcp none 200 2 5).1.length ≤ 2 := by
  constructor
  · exact pagination_amended.2.2.2.1 Nat [0] ⟨0, 0, 0⟩ (fun _ _ => none) 0 3
      (Or.inl (by decide))
  · have h := pagination_amended.2.1 cexLcp none 200 2 5 (by decide)
    simpa using h

/-! ### ProcessParallel (internal/concurrency/parallel.go)

Without cancellation, every job index is executed exactly once and sends
(index, result, error) on the results channel; the collection loop then
receives these triples in some order and writes each result into its slot
of a pre-allocated slice while appending non-nil errors.  The model makes
that order an explicit parameter: a run of ProcessParallel corresponds to
a permutation of the index range.  The pre-allocated slice holds the Go
zero values, modelled by explicit defaults. -/

/-- The collection loop's slot writes: fold the completion order, writing
slot j of the result slice. -/
def setSlots {R : Type} (v : Nat → R) (order : List Nat) (init : List R) :
    List R :=
  order.foldl (fun acc j => acc.set j (v j)) init

/-- The collection loop's error aggregation: append each received non-nil
error in completion order. -/
def collectErrors {E : Type} (errf : Nat → Option E) (order : List Nat) :
    List E :=
  order.foldl (fun es j => (errf j).elim es (fun e => es ++ [e])) []

/-- ProcessParallel: an empty input returns immediately; otherwise each
worker computes f on (index, item) and the collection loop fills the
result slice by index and gathers the errors, in completion order. -/
def ProcessParallel {T R E : Type} (dfltR : R) (dfltT : T) (items : List T)
    (f : Nat → T → R × Option E) (order : List Nat) : List R × List E :=
  if items.length = 0 then ([], [])
  else
    (setSlots (fun j => (f j ((items.get? j).getD dfltT)).1) order
      (List.replicate items.length dfltR),
     collectErrors (fun j => (f j ((items.get? j).getD dfltT)).2) order)

theorem setSlots_length {R : Type} (v : Nat → R) :
    ∀ (order : List Nat) (init : List R),
      (setSlots v order init).length = init.length := by
  intro order
  induction order with
  | nil => intro init; rfl
  | cons j t ih =>
    intro init
    show (setSlots v t (init.set j (v j))).length = init.length
    rw [ih (init.set j (v j)), List.length_set]

theorem setSlots_get? {R : Type} (v : Nat → R) :
    ∀ (order : List Nat) (init : List R) (i : Nat), i < init.length →
      (setSlots v order init).get? i
        = if i ∈ order then some (v i) else init.get? i := by
  intro order
  induction order with
  | nil =>
    intro init i hi
    simp [setSlots]
  | cons j t ih =>
    intro init i hi
    have hstep : setSlots v (j :: t) init = setSlots v t (init.set j (v j)) := rfl
    rw [hstep, ih (init.set j (v j)) i (by rw [List.length_set]; exact hi)]
    by_cases hit : i ∈ t
    · rw [if_pos hit, if_pos (List.mem_cons.mpr (Or.inr hit))]
    · rw [if_neg hit]
      by_cases hij : i = j
      · subst hij
        rw [if_pos (List.mem_cons.mpr (Or.inl rfl))]
        rw [List.get?_set_eq]
        rw [List.get?_eq_get hi]
        rfl
      · rw [if_neg (by
          intro hmem
          rcases List.mem_cons.mp hmem with h' | h'
          · exact hij h'
          · exact hit h')]
        exact List.get?_set_ne _ _ (fun h => hij h.symm)

theorem collectErrors_eq_filterMap {E : Type} (errf : Nat → Option E) :
    ∀ (order : List Nat), collectErrors errf order = order.filterMap errf := by
  have hgen : ∀ (order : List Nat) (acc : List E),
      order.foldl (fun es j => (errf j).elim es (fun e => es ++ [e])) acc
        = acc ++ order.filterMap errf := by
    intro order
    induction order with
    | nil => intro acc; simp
    | cons j t ih =>
      intro acc
      show t.foldl _ ((errf j).elim acc (fun e => acc ++ [e]))
        = acc ++ (j :: t).filterMap errf
      rcases he : errf j with _ | e
      · simp only [Option.elim_none]
        rw [ih acc, List.filterMap_cons_none he]
      · simp only [Option.elim_some]
        rw [ih (acc ++ [e]), List.filterMap_cons_some he, List.append_assoc]
        rfl
  intro order
  exact hgen order []

/-- C9: ProcessParallel on an empty input returns empty results and no
errors whatever the worker is; on a non-empty input processed without
cancellation (thus a completion order that permutes the index range), the
result slice has the length of the input, slot i holds the worker's
result on (i, items i) regardless of completion order, and the error list
is a permutation of the workers' non-nil errors. -/
theorem processParallel_spec :
    (∀ (T R E : Type) (dfltR : R) (dfltT : T) (f g : Nat → T → R × Option E)
      (order : List Nat),
      ProcessParallel dfltR dfltT [] f order = ([], [])
      ∧ ProcessParallel dfltR dfltT [] f order
        = ProcessParallel dfltR dfltT [] g order)
    ∧ (∀ (T R E : Type) (dfltR : R) (dfltT : T) (items : List T)
        (f : Nat → T → R × Option E) (order : List Nat),
        order.Perm (List.range items.length) →
        (ProcessParallel dfltR dfltT items f order).1.length = items.length
        ∧ (∀ (i : Nat) (hi : i < items.length),
            (ProcessParallel dfltR dfltT items f order).1.get? i
              = some (f i (items.get ⟨i, hi⟩)).1)
        ∧ (ProcessParallel dfltR dfltT items f order).2.Perm
            ((List.range items.length).filterMap
              (fun j => (f j ((items.get? j).getD dfltT)).2))) := by
  constructor
  · intro T R E dfltR dfltT f g order
    exact ⟨rfl, rfl⟩
  · intro T R E dfltR dfltT items f order hperm
    by_cases hemp : items.length = 0
    · have hrange : List.range items.length = [] := by rw [hemp]; rfl
      have horder : order = [] := List.Perm.eq_nil (by rw [← hrange] at *; exact hperm.trans (by rw [hrange]))
      refine ⟨?_, ?_, ?_⟩
      · simp [ProcessParallel, hemp]
      · intro i hi
        omega
      · simp [ProcessParallel, hemp, hrange]
    · have heval : ProcessParallel dfltR dfltT items f order
          = (setSlots (fun j => (f j ((items.get? j).getD dfltT)).1) order
              (List.replicate items.length dfltR),
             collectErrors (fun j => (f j ((items.get? j).getD dfltT)).2) order) := by
        unfold ProcessParallel
        rw [if_neg hemp]
      refine ⟨?_, ?_, ?_⟩
      · rw [heval]
        show (setSlots _ order (List.replicate items.length dfltR)).length = _
        rw [setSlots_length, List.length_replicate]
      · intro i hi
        rw [heval]
        show (setSlots _ order (List.replicate items.length dfltR)).get? i = _
        rw [setSlots_get? _ order _ i (by rw [List.length_replicate]; exact hi)]
        rw [if_pos (hperm.mem_iff.mpr (List.mem_range.mpr hi))]
        have : (items.get? i).getD dfltT = items.get ⟨i, hi⟩ := by
          rw [List.get?_eq_get hi]
          rfl
        rw [this]
      · rw [heval]
        show (collectErrors _ order).Perm _
        rw [collectErrors_eq_filterMap]
        exact hperm.filterMap _

/-- C9 witness: two items with completion order reversed still fill the
slots in index order, and the empty input returns immediately. -/
theorem processParallel_spec_witness :
    (ProcessParallel (0 : Nat) (0 : Nat) ([] : List Nat)
      (fun i x => (x + i, (none : Option Nat))) [] = ([], []))
    ∧ (ProcessParallel (0 : Nat) (0 : Nat) [10, 20]
        (fun i x => (x + i, if i = 0 then some 7 else none)) [1, 0]).1.get? 0
      = some 10 := by
  constructor
  · exact (processParallel_spec.1 Nat Nat Nat 0 0
      (fun i x => (x + i, (none : Option Nat)))
      (fun i x => (x + i, (none : Option Nat))) []).1
  · have h := (processParallel_spec.2 Nat Nat Nat 0 0 [10, 20]
      (fun i x => (x + i, if i = 0 then some 7 else none)) [1, 0]
      (by decide)).2.1 0 (by decide)
    rw [h]
    rfl

end CourseSync
